import Mathlib

/-!
Verification development for the DeepPavlov entity-linking core
(`deeppavlov/models/entity_linking/entity_linking_sep.py` and
`deeppavlov/models/entity_linking/entity_linking.py`).

The Python code is shallowly embedded:
* Python `dict`s (insertion ordered) are modelled as association lists
  (`List (κ × ν)`) with in-place update and append-at-end insertion;
* Python `float` scores are modelled as exact rationals `ℚ` (the algorithms
  only use `+`, `-`, `min`, `max`, `/`, comparisons and two-digit rounding);
* Python `set`s of `(entity id, label length)` pairs are modelled as lists
  (set iteration order becomes list order);
* external collaborators (the morphological normalizer, the faiss index and
  the BERT reranker) are oracle function parameters;
* exceptions raised by the Python code are modelled with `Option` where a
  claim depends on them, and are otherwise noted in comments.

The file is organized as: all definitions first, then all theorems.
-/

set_option maxHeartbeats 1600000

namespace DeepPavlov

/-! # Definitions -/

/-! ## Association lists as insertion-ordered Python dicts -/

/-- First-match lookup in an association list (Python `d[k]` / `d.get(k)`). -/
def alistGet? {κ ν : Type} [DecidableEq κ] : List (κ × ν) → κ → Option ν
  | [], _ => none
  | (k, v) :: t, k' => if k = k' then some v else alistGet? t k'

/-- Lookup with a default (Python `d.get(k, dflt)`). -/
def alistGetD {κ ν : Type} [DecidableEq κ] (l : List (κ × ν)) (k : κ) (dflt : ν) : ν :=
  (alistGet? l k).getD dflt

/-- Python `defaultdict(int); d[k] += s`: add `s` to the entry of `k` in place,
appending `(k, s)` at the end when `k` is absent. -/
def addScore {κ : Type} [DecidableEq κ] : List (κ × ℚ) → κ → ℚ → List (κ × ℚ)
  | [], k, s => [(k, s)]
  | (k', v) :: t, k, s => if k' = k then (k', v + s) :: t else (k', v) :: addScore t k s

/-- Python `if k in d: (if s > d[k]: d[k] = s) else: d[k] = s`: keep the
maximum value for `k`, updating in place, appending when absent. -/
def setIfGreater {κ : Type} [DecidableEq κ] : List (κ × ℚ) → κ → ℚ → List (κ × ℚ)
  | [], k, s => [(k, s)]
  | (k', v) :: t, k, s =>
    if k' = k then (k', if s > v then s else v) :: t else (k', v) :: setIfGreater t k s

/-- Python `d[k] = v`: overwrite in place, append when absent. -/
def alistSet {κ ν : Type} [DecidableEq κ] : List (κ × ν) → κ → ν → List (κ × ν)
  | [], k, v => [(k, v)]
  | (k', v') :: t, k, v => if k' = k then (k', v) :: t else (k', v') :: alistSet t k v

/-- Python `if k not in d: d[k] = []` followed by `d[k] += xs`. -/
def appendEntry {κ α : Type} [DecidableEq κ] : List (κ × List α) → κ → List α → List (κ × List α)
  | [], k, xs => [(k, xs)]
  | (k', v) :: t, k, xs =>
    if k' = k then (k', v ++ xs) :: t else (k', v) :: appendEntry t k xs

/-- Keys of an association list. -/
def alistKeys {κ ν : Type} (l : List (κ × ν)) : List κ := l.map Prod.fst

/-! ## Maxima of rational lists -/

/-- Maximum of a list of rationals (`none` for the empty list). -/
def listMax? : List ℚ → Option ℚ
  | [] => none
  | x :: xs => some (xs.foldl max x)

/-- Merge of optional maxima. -/
def optMax : Option ℚ → Option ℚ → Option ℚ
  | none, b => b
  | some a, none => some a
  | some a, some b => some (max a b)

/-! ## Stable descending sort (Python `sorted(..., key=..., reverse=True)`)

Python's `sorted` is stable; with `reverse=True` it orders by strictly
descending key and equal-key elements keep their original relative order.
`sortDesc` is an insertion sort with exactly that specification. -/

/-- Insert `x` in front of the first element whose key is not greater. -/
def insDesc {α κ : Type} (key : α → κ) (ltK : κ → κ → Bool) (x : α) : List α → List α
  | [] => [x]
  | y :: ys => if ltK (key x) (key y) then y :: insDesc key ltK x ys else x :: y :: ys

/-- Stable descending sort by `key` under the strict comparison `ltK`. -/
def sortDesc {α κ : Type} (key : α → κ) (ltK : κ → κ → Bool) : List α → List α
  | [] => []
  | x :: xs => insDesc key ltK x (sortDesc key ltK xs)

/-- Strict lexicographic comparison step: compare first components with `<`,
break ties with `g` on the second components (Python tuple comparison). -/
def lexStepB {α β : Type} [LinearOrder α] (g : β → β → Bool) (a b : α × β) : Bool :=
  decide (a.1 < b.1) || (decide (a.1 = b.1) && g a.2 b.2)

/-- Strict `<` on `ℕ` as a `Bool`. -/
def natLtB (a b : ℕ) : Bool := decide (a < b)

/-! ## `sum_scores` (entity_linking_sep.py lines 630-645, entity_linking.py 640-655)

`sum_scores(candidate_entities, substr_len)` receives per-word candidate triples
`(entity id, entity-label length, similarity score)` and the mention's word
count, accumulates scores per `(id, length)` pair into a `defaultdict(int)`,
normalizes each pair as `min(score_sum, label_len) / max(substr_len, label_len)`
and finally keeps, per entity id, only the maximum normalized score
(strict-improvement update, first occurrence keeps insertion position). -/

/-- First loop of `sum_scores`: `entities_with_scores_sum[(entity[0], entity[1])] += entity[2]`. -/
def sumScoresAcc : List ((String × ℕ) × ℚ) → List (String × ℕ × ℚ) → List ((String × ℕ) × ℚ)
  | acc, [] => acc
  | acc, (e, l, s) :: rest => sumScoresAcc (addScore acc (e, l) s) rest

/-- The normalization of `sum_scores`:
`score = min(scores_sum, cand_entity_len) / max(substr_len, cand_entity_len)`.
(When both lengths are zero the Python code would raise `ZeroDivisionError`;
in `ℚ` division by zero yields zero. Label lengths are word counts ≥ 1 in the
index data, so the corner is unreachable there.) -/
def normScore (substrLen : ℕ) (candLen : ℕ) (scoresSum : ℚ) : ℚ :=
  min scoresSum (candLen : ℚ) / max (substrLen : ℚ) (candLen : ℚ)

/-- Second loop of `sum_scores`: normalize each `(entity, cand_entity_len)` pair and
keep the maximum score per entity id. -/
def sumScoresMax (substrLen : ℕ) :
    List (String × ℚ) → List ((String × ℕ) × ℚ) → List (String × ℚ)
  | acc, [] => acc
  | acc, ((e, l), ssum) :: rest =>
    sumScoresMax substrLen (setIfGreater acc e (normScore substrLen l ssum)) rest

/-- `EntityLinkerSep.sum_scores` / `EntityLinker.sum_scores` (identical in both files). -/
def sumScores (candidateEntities : List (String × ℕ × ℚ)) (substrLen : ℕ) :
    List (String × ℚ) :=
  sumScoresMax substrLen [] (sumScoresAcc [] candidateEntities)

/-- Total similarity score contributed to the pair `(e, l)` by a candidate list
(the claim's "sum of per-word similarity scores" for one group). -/
def scoreSum (cands : List (String × ℕ × ℚ)) (e : String) (l : ℕ) : ℚ :=
  ((cands.filter (fun c => c.1 = e ∧ c.2.1 = l)).map (fun c => c.2.2)).sum

/-- `scoreSum` keyed by a pair. -/
def pairSum (cands : List (String × ℕ × ℚ)) (k : String × ℕ) : ℚ :=
  scoreSum cands k.1 k.2

/-- The `(entity id, label length)` pairs occurring in a candidate list. -/
def candPairs (cands : List (String × ℕ × ℚ)) : List (String × ℕ) :=
  cands.map (fun c => (c.1, c.2.1))

/-! ## Python string operations

Modelled over `String.data` (`List Char`) so that they evaluate by kernel
reduction; Lean's built-in `String.startsWith`/`splitOn` are byte-based and do
not reduce. Python `len`/slicing count characters, as these do. -/

/-- Python `s.startswith(p)`. -/
def pyStartsWith (s p : String) : Bool := p.data.isPrefixOf s.data

/-- `tok in s` on character lists: `tok` occurs as a contiguous substring. -/
def pyHasInfix : List Char → List Char → Bool
  | [], tok => tok.isEmpty
  | c :: rest, tok => tok.isPrefixOf (c :: rest) || pyHasInfix rest tok

/-- Python `tok in s` for strings. -/
def pyContains (s tok : String) : Bool := pyHasInfix s.data tok.data

/-- Split a character list at every occurrence of `sep`, keeping empty pieces
(Python `s.split(sep)` for a one-character separator). -/
def pySplitChar (sep : Char) : List Char → List (List Char)
  | [] => [[]]
  | c :: rest =>
    let ps := pySplitChar sep rest
    if c = sep then [] :: ps
    else
      match ps with
      | [] => [[c]]
      | p :: pt => (c :: p) :: pt

/-- Python `s.split(' ')`. -/
def pySplitSpace (s : String) : List String :=
  (pySplitChar ' ' s.data).map (fun l => ⟨l⟩)

/-- Python `len(s)` (character count). -/
def pyLen (s : String) : ℕ := s.data.length

/-- Python `s[n:]`. -/
def pyDrop (s : String) (n : ℕ) : String := ⟨s.data.drop n⟩

/-- Python `s[a:b]` for `0 ≤ a, b` (clamped like Python slices). -/
def pySlice (s : String) (a b : ℕ) : String := ⟨(s.data.take b).drop a⟩

/-! ## Result shapes

`__call__` and its helpers return, per mention, either a bare entity id /
confidence (when `num_entities_to_return == 1`) or a list of them: Python is
dynamically typed, so the two shapes are modelled as an inductive sum.
Pre-rerank confidence entries are produced by the (buggy) line
`conf = [candidate_entity[1:] for candidate_entity in candidate_entities]`
which slices id *strings* because `candidate_entities` was already reassigned
to the list of ids two lines above; `ConfVal.strSlice` records that. -/

/-- A full confidence tuple `(substring score, popularity, rerank score)`. -/
abbrev ConfTup := ℚ × ℕ × ℚ

/-- One confidence entry: either a proper tuple or the string slice produced by
the pre-rerank `conf` computation. -/
inductive ConfVal where
  | tup (t : ConfTup)
  | strSlice (s : String)
  deriving DecidableEq

/-- A per-mention entity-id result: one id (single-answer mode) or a list. -/
inductive EntRes where
  | one (e : String)
  | many (es : List String)
  deriving DecidableEq

/-- A per-mention confidence result. -/
inductive ConfRes where
  | one (c : ConfVal)
  | many (cs : List ConfVal)
  deriving DecidableEq

/-- A per-mention label result produced by `find_labels`. -/
inductive LabelRes where
  | one (s : String)
  | many (ss : List String)
  deriving DecidableEq

/-! ## Popularity ranker (entity_linking_sep.py lines 586-605, entity_linking.py 595-614)

Per mention, the fused candidate list `(entity id, substring score)` is
extended with `entities_ranking_dict.get(id, 0)`, sorted descending by
`(substring score, popularity)`, recorded into `entities_scores`, and
truncated to `num_entities_for_bert_ranking` and then to
`num_entities_to_return` (a bare id when the latter is 1 and candidates
exist). -/

/-- `candidate_entities = [candidate_entity + (ranking_dict.get(id, 0),) ...]`. -/
def attachPop (rdict : List (String × ℕ)) (cands : List (String × ℚ)) :
    List (String × ℚ × ℕ) :=
  cands.map (fun c => (c.1, c.2, alistGetD rdict c.1 0))

/-- Sort key of the pre-rerank sort: `(substring score, popularity)`. -/
def candKey (c : String × ℚ × ℕ) : ℚ × ℕ := (c.2.1, c.2.2)

/-- `sorted(candidate_entities, key=lambda x: (x[1], x[2]), reverse=True)`. -/
def rankSorted (rdict : List (String × ℕ)) (cands : List (String × ℚ)) :
    List (String × ℚ × ℕ) :=
  sortDesc candKey (lexStepB natLtB) (attachPop rdict cands)

/-- Per-mention output of the pre-rerank ranking block. -/
structure PreRank where
  bertCands : List String
  escores : List (String × (ℚ × ℕ))
  entRes : EntRes
  confRes : ConfRes
  deriving DecidableEq

/-- The per-mention body of the loop at entity_linking_sep.py lines 586-606. -/
def rankMentionCands (numBert numRet : ℕ) (rdict : List (String × ℕ))
    (cands : List (String × ℚ)) : PreRank :=
  let sorted := rankSorted rdict cands
  let escores := sorted.foldl (fun acc c => alistSet acc c.1 (c.2.1, c.2.2)) []
  let ids := (sorted.map (fun c => c.1)).take numBert
  let conf := (ids.map (fun s => ConfVal.strSlice (pyDrop s 1))).take numBert
  { bertCands := ids
    escores := escores
    entRes :=
      if numRet = 1 ∧ ids ≠ [] then EntRes.one (ids.headD "")
      else EntRes.many (ids.take numRet)
    confRes :=
      if numRet = 1 ∧ ids ≠ [] then ConfRes.one (conf.headD (ConfVal.strSlice ""))
      else ConfRes.many (conf.take numRet) }

/-! ## Contextual reranker adapter, score phase
(entity_linking_sep.py lines 723-757; the claims cite the sep version)

After the external reranker returns `(entity, score)` pairs per mention, the
code builds rows `(entity, round(substr,2), pop, round(score,2))`, filters on
`entity[3] > 0.001 and entity[0].startswith("Q")`, sorts descending by
`(x[1], x[3], x[2])`, applies the acceptance cascade and truncates. -/

/-- `self.not_found_str`. -/
def notFoundStr : String := "not in wiki"

/-- `self.not_found_tokens`. -/
def notFoundTokens : List String :=
  ["ооо", "оао", "фгуп", "муп", "акционерное общество", "зао", "мкп"]

/-- Two-decimal rounding (Python `round(x, 2)`), modelled with Mathlib's
`round` (half points round away differently from Python's float half-even
rounding; exact hundredth-halves are not float-representable anyway, and no
claim depends on them). -/
def round2 (q : ℚ) : ℚ := ((round (q * 100) : ℤ) : ℚ) / 100

/-- One scored candidate row `(entity, substr score, popularity, rerank score)`. -/
abbrev ScoredEnt := String × ℚ × ℕ × ℚ

/-- Lines 726-728: build rows from the reranker's `(entity, score)` pairs with
`entities_scores.get(entity, (0.0, 0))`. -/
def entitiesWithScores (escores : List (String × (ℚ × ℕ))) (scores : List (String × ℚ)) :
    List ScoredEnt :=
  scores.map (fun p => (p.1, round2 (alistGetD escores p.1 ((0 : ℚ), (0 : ℕ))).1,
    (alistGetD escores p.1 ((0 : ℚ), (0 : ℕ))).2, round2 p.2))

/-- Lines 730-731: keep rows with `entity[3] > 0.001` and `entity[0].startswith("Q")`. -/
def filterScored (l : List ScoredEnt) : List ScoredEnt :=
  l.filter (fun x => decide (x.2.2.2 > 1/1000) && pyStartsWith x.1 "Q")

/-- Line 732 sort key `(x[1], x[3], x[2])`: (substr score, rerank score, popularity). -/
def scoredKey (x : ScoredEnt) : ℚ × ℚ × ℕ := (x.2.1, x.2.2.2, x.2.2.1)

/-- Line 732: `sorted(entities_with_scores, key=lambda x: (x[1], x[3], x[2]), reverse=True)`. -/
def sortScored (l : List ScoredEnt) : List ScoredEnt :=
  sortDesc scoredKey (lexStepB (lexStepB natLtB)) l

/-- The score phase of `rank_by_description` for one mention: rows, filter, sort. -/
def processScores (escores : List (String × (ℚ × ℕ))) (scores : List (String × ℚ)) :
    List ScoredEnt :=
  sortScored (filterScored (entitiesWithScores escores scores))

/-- The low-confidence rejection disjunction of lines 741-744, applied to the
top row `(entity, substr, pop, rerank)`. -/
def codeTierReject (x : ScoredEnt) : Prop :=
  (x.2.2.2 < 11/100 ∧ x.2.2.1 < 90) ∨ x.2.1 < 3/10 ∨
    (x.2.2.2 < 13/100 ∧ x.2.2.1 < 20) ∨ (x.2.2.2 < 3/10 ∧ x.2.2.1 < 4) ∨ x.2.1 = 1/2

instance codeTierRejectDec (x : ScoredEnt) : Decidable (codeTierReject x) := by
  unfold codeTierReject
  exact inferInstance

/-- The confidence floor exactly as claim C5 words it: tiers over
(rerank score, popularity) only, with no substring-score conditions. -/
def specTierReject (x : ScoredEnt) : Prop :=
  (x.2.2.2 < 11/100 ∧ x.2.2.1 < 90) ∨ (x.2.2.2 < 13/100 ∧ x.2.2.1 < 20) ∨
    (x.2.2.2 < 3/10 ∧ x.2.2.1 < 4)

instance specTierRejectDec (x : ScoredEnt) : Decidable (specTierReject x) := by
  unfold specTierReject
  exact inferInstance

/-- Lines 735-749: the acceptance cascade producing `(top_entities, top_conf)`. -/
def descTop (substrLen : ℕ) (ews : List ScoredEnt) : List String × List ConfTup :=
  match ews with
  | [] => ([notFoundStr], [((0 : ℚ), (0 : ℕ), (0 : ℚ))])
  | x :: _ =>
    if substrLen = 1 ∧ x.2.1 < 1 then ([notFoundStr], [((0 : ℚ), (0 : ℕ), (0 : ℚ))])
    else if codeTierReject x then ([notFoundStr], [((0 : ℚ), (0 : ℕ), (0 : ℚ))])
    else (ews.map (fun s => s.1), ews.map (fun s => (s.2.1, s.2.2.1, s.2.2.2)))

/-- Lines 751-756: emit one id or a truncated list, per mention. -/
def descRankOne (numRet substrLen : ℕ) (ews : List ScoredEnt) : EntRes × ConfRes :=
  let top := descTop substrLen ews
  if numRet = 1 ∧ top.1 ≠ [] then
    (EntRes.one (top.1.headD ""), ConfRes.one (ConfVal.tup (top.2.headD (0, 0, 0))))
  else
    (EntRes.many (top.1.take numRet), ConfRes.many ((top.2.map ConfVal.tup).take numRet))

/-- The not-found result in both output shapes (comparison value for C5). -/
def sentinelRes (numRet : ℕ) : EntRes × ConfRes :=
  if numRet = 1 then (EntRes.one notFoundStr, ConfRes.one (ConfVal.tup (0, 0, 0)))
  else (EntRes.many ([notFoundStr].take numRet),
    ConfRes.many ([ConfVal.tup (0, 0, 0)].take numRet))

/-- The emission of the sorted candidate list truncated to the return budget
(comparison value for C5). -/
def emitRes (numRet : ℕ) (ews : List ScoredEnt) : EntRes × ConfRes :=
  if numRet = 1 ∧ ews.map (fun s => s.1) ≠ [] then
    (EntRes.one ((ews.map (fun s => s.1)).headD ""),
      ConfRes.one (ConfVal.tup ((ews.map (fun s => (s.2.1, s.2.2.1, s.2.2.2))).headD (0, 0, 0))))
  else
    (EntRes.many ((ews.map (fun s => s.1)).take numRet),
      ConfRes.many (((ews.map (fun s => (s.2.1, s.2.2.1, s.2.2.2))).map ConfVal.tup).take numRet))

/-- The condition under which the code replaces the ranking by the sentinel:
no rows remain, or the single-word top row has substring score < 1.0, or the
top row triggers the line 741-744 rejection disjunction. -/
def rejectCond (substrLen : ℕ) (ews : List ScoredEnt) : Prop :=
  match ews with
  | [] => True
  | x :: _ => (substrLen = 1 ∧ x.2.1 < 1) ∨ codeTierReject x

instance rejectCondDec (substrLen : ℕ) (ews : List ScoredEnt) :
    Decidable (rejectCond substrLen ews) := by
  unfold rejectCond
  cases ews with
  | nil => exact inferInstanceAs (Decidable True)
  | cons x t => exact inferInstanceAs (Decidable (_ ∨ _))

/-! ## Chunker hard word-window fallback (entity_linking.py lines 158-166) -/

/-- Modelled from the spec: the hard word-count window fallback of
`NerChunker.__call__` (entity_linking.py lines 158-166), reached when a
sentence of tokenized length ≥ `max_seq_len` contains no comma. Source
line 160 computes `len(chunk_tokens) % self.max_chunk`, but `max_chunk` is
not an attribute of `NerChunker` (`__init__` only assigns `max_chunk_len`),
so in Python that line raises `AttributeError`; the spec's intended window
size `max_chunk_len` is used here in its place. Each window emits its token
slice `chunk_tokens[ii*C:(ii+1)*C]`, a single dummy sentence span
`(0, len(chunk_tokens_elem))` covering itself, and the document number. -/
def hardWindowChunks (maxChunkLen : ℕ) (chunkTokens : List String) (n : ℕ) :
    List (List String × List (ℕ × ℕ) × ℕ) :=
  let numChunks := chunkTokens.length / maxChunkLen +
    (if chunkTokens.length % maxChunkLen > 0 then 1 else 0)
  (List.range numChunks).map (fun ii =>
    let elem := (chunkTokens.take ((ii + 1) * maxChunkLen)).drop (ii * maxChunkLen)
    (elem, [(0, elem.length)], n))

/-! ## `find_labels` (entity_linking_sep.py lines 759-770)

In the `else` branch (single-answer mode, `entity_ids` a bare id string) the
source line 767 reads `self.q_to_label.get(entity_id, entity_id)`, but
`entity_id` is bound only inside the preceding list comprehension, which in
Python 3 has its own scope: the name is undefined there and the line raises
`NameError`. The crash is modelled as `none`. -/

/-- `find_labels`, inner loop over one document's per-mention results. -/
def findLabelsList (qToLabel : List (String × String)) : List EntRes → Option (List LabelRes)
  | [] => some []
  | EntRes.many ids :: rest =>
    match findLabelsList qToLabel rest with
    | some labs => some (LabelRes.many (ids.map (fun i => alistGetD qToLabel i i)) :: labs)
    | none => none
  | EntRes.one _ :: _ => none

/-- `EntityLinkerSep.find_labels` over the batch. -/
def findLabels (qToLabel : List (String × String)) :
    List (List EntRes) → Option (List (List LabelRes))
  | [] => some []
  | l :: rest =>
    match findLabelsList qToLabel l with
    | some labs =>
      match findLabels qToLabel rest with
      | some rs => some (labs :: rs)
      | none => none
    | none => none

/-! ## Linker configuration -/

/-- Configuration and loaded tables of `EntityLinkerSep` (the fields the
inference path reads). -/
structure Cfg where
  numFaissCandidateEntities : ℕ
  numEntitiesForBertRanking : ℕ
  numFaissCells : ℕ
  includeMention : Bool
  numEntitiesToReturn : ℕ
  useDescriptions : Bool
  maxTextLen : ℕ
  fullParagraph : Bool
  maxParagraphLen : ℕ
  stopwords : List String
  wordToIdlist : List (String × List (String × ℕ))
  entitiesRankingDict : List (String × ℕ)
  entitiesTypesSets : List (String × List String)
  qToLabel : List (String × String)

/-- A faiss search row: distances `D[i]` and neighbor word indices `I[i]`. -/
abbrev FaissRow := List ℚ × List ℕ

/-- Lines 434-437: `[word for word in entity_substr.split(' ') if word not in
self.stopwords and len(word) > 0]`. -/
def splitWords (stopwords : List String) (s : String) : List String :=
  (pySplitSpace s).filter (fun w => !stopwords.contains w && decide (0 < pyLen w))

/-! ## Word classification (entity_linking_sep.py lines 438-486)

The loop walks all documents with a global word counter, recording per
expanded word (original plus, when distinct, its normalized form) the mention
index, the word counter value, the mention tag, the word itself and whether it
is present in the inverted index; present words go to `fnd_words`, absent ones
to the global `nf_words` list with their document number. -/

/-- One expanded word record. -/
structure WordItem where
  index : ℕ
  count : ℕ
  tag : String
  word : String
  flag : Bool
  deriving DecidableEq

/-- Lines 452-472 for one original word: the word itself and, when the
normalized form differs, the normalized form, both under the same counter. -/
def expandWord (idlist : List (String × List (String × ℕ))) (morph : String → String)
    (i : ℕ) (tag : String) (wc : ℕ) (w : String) : List WordItem :=
  ⟨i, wc, tag, w, (alistGet? idlist w).isSome⟩ ::
    (if morph w ≠ w then [⟨i, wc, tag, morph w, (alistGet? idlist (morph w)).isSome⟩] else [])

/-- The inner `for word in entity_substr` loop; `word_count += 1` per word. -/
def mentionItems (idlist : List (String × List (String × ℕ))) (morph : String → String)
    (i : ℕ) (tag : String) : ℕ → List String → List WordItem
  | _, [] => []
  | wc, w :: ws =>
    expandWord idlist morph i tag wc w ++ mentionItems idlist morph i tag (wc + 1) ws

/-- The `for i, (entity_substr, tag) in enumerate(zip(...))` loop of one doc. -/
def classifyMentions (idlist : List (String × List (String × ℕ))) (morph : String → String) :
    ℕ → ℕ → List (List String × String) → List WordItem
  | _, _, [] => []
  | i, wc, (ws, tag) :: rest =>
    mentionItems idlist morph i tag wc ws ++
      classifyMentions idlist morph (i + 1) (wc + ws.length) rest

/-- One document's items, starting at global word counter `wc0`. -/
def classifyDoc (idlist : List (String × List (String × ℕ))) (morph : String → String)
    (wordLists : List (List String)) (tags : List String) (wc0 : ℕ) : List WordItem :=
  classifyMentions idlist morph 0 wc0 (wordLists.zip tags)

/-- Original word count of a document (how much the global counter advances). -/
def totalWords (wordLists : List (List String)) (tags : List String) : ℕ :=
  ((wordLists.zip tags).map (fun p => p.1.length)).sum

/-- The outer `for doc_num, ... in enumerate(zip(entity_substr_batch, tags_batch))`. -/
def classifyBatch (idlist : List (String × List (String × ℕ))) (morph : String → String) :
    ℕ → List (List (List String) × List String) → List (List WordItem)
  | _, [] => []
  | wc, (wordLists, tags) :: rest =>
    classifyDoc idlist morph wordLists tags wc ::
      classifyBatch idlist morph (wc + totalWords wordLists tags) rest

/-- `fnd_words` of one document: the flagged words in order. -/
def fndWordsOf (items : List WordItem) : List String :=
  (items.filter (fun it => it.flag)).map (fun it => it.word)

/-- `nf_words` of one document: the unflagged words in order. -/
def nfWordsOf (items : List WordItem) : List String :=
  (items.filter (fun it => !it.flag)).map (fun it => it.word)

/-- The global `nf_words_doc_nums` list: absent words with document numbers. -/
def nfWordDocs (itemsBatch : List (List WordItem)) : List (String × ℕ) :=
  (itemsBatch.enum.map (fun p => (nfWordsOf p.2).map (fun w => (w, p.1)))).flatten

/-! ## Splitting faiss rows per document (lines 493-514) -/

/-- The `for D, I, doc_num in zip(D_all, I_all, nf_doc_nums)` loop: flush the
current run on a document change, padding skipped documents with `[]`. -/
def splitRowsLoop : List (FaissRow × ℕ) → ℕ → List FaissRow → List (List FaissRow) →
    (List (List FaissRow) × List FaissRow)
  | [], _, cur, acc => (acc, cur)
  | (row, dn) :: rest, prev, cur, acc =>
    if dn ≠ prev then
      splitRowsLoop rest dn [row] (acc ++ [cur] ++ List.replicate (dn - prev - 1) [])
    else
      splitRowsLoop rest dn (cur ++ [row]) acc

/-- Lines 493-510, plus the final `if D_list: D_batch.append(D_list)`. -/
def splitRows (pairs : List (FaissRow × ℕ)) : List (List FaissRow) :=
  let r := splitRowsLoop pairs 0 [] []
  if r.2.isEmpty then r.1 else r.1 ++ [r.2]

/-- Lines 512-514: pad `D_batch` with empty lists up to the document count. -/
def padRows (docs : ℕ) (rows : List (List FaissRow)) : List (List FaissRow) :=
  rows ++ List.replicate (docs - rows.length) []

/-! ## Candidate accumulation (lines 527-577)

The dict `candidate_entities_dict` is an `OrderedDict` keyed by mention index;
`candidate_entities` accumulates `(entity, label length) → best score` for the
current word group and is flushed into the dict whenever the word counter
changes, and once more after the loop (there under the loop variable `index`,
which in Python is unbound — `NameError` — when the loop never ran; that case
is modelled as returning the dict unchanged and is excluded by the theorems'
hypotheses). Entity sets are filtered to the mention tag's type set or the
"AMB" set (`self.entities_types_sets[tag]` would raise `KeyError` for an
unknown tag; modelled as the empty set via `get` with default). -/

/-- The type filter of lines 558-560. -/
def typeFilter (tsets : List (String × List String)) (tag : String)
    (es : List (String × ℕ)) : List (String × ℕ) :=
  es.filter (fun e =>
    (alistGetD tsets tag []).contains e.1 || (alistGetD tsets "AMB" []).contains e.1)

/-- Lines 561-566: merge a filtered entity set under one score, keeping maxima. -/
def mergeEntities (cand : List ((String × ℕ) × ℚ)) (es : List (String × ℕ)) (score : ℚ) :
    List ((String × ℕ) × ℚ) :=
  es.foldl (fun c e => setIfGreater c e score) cand

/-- The `for ind, score in zip(ind_list, scores_list)` loop (lines 553-566). -/
def accumPairs (idlist : List (String × List (String × ℕ)))
    (tsets : List (String × List String)) (tag : String)
    (pairs : List (String × ℚ)) (cand : List ((String × ℕ) × ℚ)) :
    List ((String × ℕ) × ℚ) :=
  pairs.foldl (fun c p => mergeEntities c (typeFilter tsets tag (alistGetD idlist p.1 [])) p.2) cand

/-- Loop state of the accumulation loop. -/
structure AccumSt where
  wordsI : ℕ
  indI : ℕ
  prevCount : ℕ
  prevIndex : ℕ
  cand : List ((String × ℕ) × ℚ)
  dict : List (ℕ × List (String × ℕ × ℚ))

/-- Lines 535-544: the `(ind, score)` pairs consumed by one iteration — the
exact word with similarity `1.0` when the word was found in the inverted
index, else the faiss row at the running counter with distances converted to
`1 - d` when `num_faiss_cells > 1` (out-of-range row or neighbor-index access
would raise `IndexError` in Python; modelled with defaults). -/
def wordPairs (fndWords : List String) (rows : List FaissRow) (wordKeys : List String)
    (cells : ℕ) (st : AccumSt) (it : WordItem) : List (String × ℚ) :=
  if it.flag then [(fndWords.getD st.wordsI "", 1)]
  else
    let row := rows.getD st.indI ([], [])
    let scoresList := if 1 < cells then row.1.map (fun d => 1 - d) else row.1
    (row.2.zip scoresList).map (fun p => (wordKeys.getD p.1 "", p.2))

/-- One iteration of the `for i, (index, word_count, tag, flag)` loop. -/
def accumStep (idlist : List (String × List (String × ℕ)))
    (tsets : List (String × List String)) (wordKeys : List String) (cells : ℕ)
    (fndWords : List String) (rows : List FaissRow) (st : AccumSt) (it : WordItem) : AccumSt :=
  let pairs := wordPairs fndWords rows wordKeys cells st it
  let st1 :=
    if it.count ≠ st.prevCount then
      { st with
        dict := appendEntry st.dict st.prevIndex (st.cand.map (fun pc => (pc.1.1, pc.1.2, pc.2)))
        cand := [] }
    else st
  let cand2 := accumPairs idlist tsets it.tag pairs st1.cand
  { wordsI := st.wordsI + (if it.flag then 1 else 0)
    indI := st.indI + (if it.flag then 0 else 1)
    prevCount := it.count
    prevIndex := it.index
    cand := cand2
    dict := st1.dict }

/-- Initial accumulation state. -/
def accumInit : AccumSt := ⟨0, 0, 0, 0, [], []⟩

/-- The whole accumulation (lines 527-577) producing `candidate_entities_dict`. -/
def accumDict (idlist : List (String × List (String × ℕ)))
    (tsets : List (String × List String)) (wordKeys : List String) (cells : ℕ)
    (fndWords : List String) (rows : List FaissRow) (items : List WordItem) :
    List (ℕ × List (String × ℕ × ℚ)) :=
  let fin := items.foldl (accumStep idlist tsets wordKeys cells fndWords rows) accumInit
  match items with
  | [] => fin.dict
  | _ =>
    appendEntry fin.dict fin.prevIndex (fin.cand.map (fun pc => (pc.1.1, pc.1.2, pc.2)))

/-! ## Context building (entity_linking_sep.py lines 662-719) -/

/-- Lines 670-677: find the first sentence whose span contains the mention,
returning `(sentence, found_sentence_num, rel_start, rel_end)`. -/
def findSentence (eso eeo : ℕ) : List (String × (ℕ × ℕ)) → ℕ → String × ℕ × ℕ × ℕ
  | [], _ => ("", 0, 0, 0)
  | (sent, (ss, se)) :: rest, num =>
    if eso ≥ ss ∧ eeo ≤ se then (sent, num, eso - ss, eeo - ss)
    else findSentence eso eeo rest (num + 1)

/-- A character of the `[\w']+` run class of `self.re_tokenizer`. Python `\w`
is Unicode-aware while `Char.isAlphanum` is ASCII; only token counts in the
optional paragraph extension depend on this, and no claim rests on them. -/
def reRunChar (c : Char) : Bool := c.isAlphanum || c = '_' || c = Char.ofNat 39

/-- Count of `re.findall(r"[\w']+|[^\w ]", s)` matches: the Bool tracks being
inside a word run. -/
def reTokenCountGo : Bool → List Char → ℕ
  | _, [] => 0
  | inRun, c :: rest =>
    if reRunChar c then (if inRun then 0 else 1) + reTokenCountGo true rest
    else if c = ' ' then reTokenCountGo false rest
    else 1 + reTokenCountGo false rest

/-- `len(re.findall(self.re_tokenizer, s))`. -/
def reTokenCount (s : String) : ℕ := reTokenCountGo false s.data

/-- Python `" ".join(l)`. -/
def joinSpace : List String → String
  | [] => ""
  | [s] => s
  | s :: rest => s ++ " " ++ joinSpace rest

/-- State of the paragraph-extension `while True` loop (lines 695-716). -/
structure ParaSt where
  ctx : List String
  curLen : ℕ
  first : ℕ
  last : ℕ

/-- One iteration of the loop body: try to append the following sentence, then
to prepend the preceding one, while the token budget allows. -/
def paraStep (sentences : List String) (maxPar : ℕ) (st : ParaSt) : ParaSt × Bool :=
  let s1 :=
    if st.last < sentences.length - 1 then
      let lastLen := reTokenCount (sentences.getD (st.last + 1) "")
      if st.curLen + lastLen < maxPar then
        ({ st with
            ctx := st.ctx ++ [sentences.getD (st.last + 1) ""]
            curLen := st.curLen + lastLen
            last := st.last + 1 }, true)
      else (st, false)
    else (st, false)
  let s2 :=
    if s1.1.first > 0 then
      let firstLen := reTokenCount (sentences.getD (s1.1.first - 1) "")
      if s1.1.curLen + firstLen < maxPar then
        ({ s1.1 with
            ctx := sentences.getD (s1.1.first - 1) "" :: s1.1.ctx
            curLen := s1.1.curLen + firstLen
            first := s1.1.first - 1 }, true)
      else (s1.1, false)
    else (s1.1, false)
  (s2.1, s1.2 || s2.2)

/-- The `while True` loop, with fuel. Every iteration that continues strictly
widens the `[first, last]` window inside the sentence list, so
`2 * sentences.length + 2` iterations always reach the `break`. -/
def paraLoop (sentences : List String) (maxPar : ℕ) : ℕ → ParaSt → ParaSt
  | 0, st => st
  | fuel + 1, st =>
    let r := paraStep sentences maxPar st
    if r.2 then paraLoop sentences maxPar fuel r.1 else r.1

/-- Lines 662-719: build the reranker context for one mention. -/
def buildContext (cfg : Cfg) (sentencesList : List String)
    (sentencesOffsets : List (ℕ × ℕ)) (entityOffsets : ℕ × ℕ) : String :=
  let f := findSentence entityOffsets.1 entityOffsets.2
    (sentencesList.zip sentencesOffsets) 0
  let sentence := f.1
  let foundNum := f.2.1
  let relS := f.2.2.1
  let relE := f.2.2.2
  if sentence = "" then ""
  else
    let startOf := if cfg.maxTextLen < pyLen sentence then relS - cfg.maxTextLen / 2 else 0
    let endOf :=
      if cfg.maxTextLen < pyLen sentence then min (relE + cfg.maxTextLen / 2) (pyLen sentence)
      else pyLen sentence
    let context :=
      if cfg.includeMention then
        pySlice sentence startOf relS ++ "[ENT]" ++ pySlice sentence relS relE ++ "[ENT]" ++
          pySlice sentence relE endOf
      else
        pySlice sentence startOf relS ++ "[ENT]" ++ pySlice sentence relE endOf
    if cfg.fullParagraph then
      let st0 : ParaSt := ⟨[context], reTokenCount context, foundNum, foundNum⟩
      joinSpace (paraLoop sentencesList cfg.maxParagraphLen (2 * sentencesList.length + 2) st0).ctx
    else context

/-! ## `rank_by_description` (lines 647-757) -/

/-- Zip of three lists (the Python `zip(a, b, c)`). -/
def zip3 {α β γ : Type} : List α → List β → List γ → List (α × β × γ)
  | a :: as', b :: bs, c :: cs => (a, b, c) :: zip3 as' bs cs
  | _, _, _ => []

/-- The final loop of `rank_by_description` (lines 723-756): one
`(entity_ids, conf)` pair per zipped mention. -/
def descLoop (numRet : ℕ) : List (List String) → List (List String) → List String → List ℕ →
    List (List (String × (ℚ × ℕ))) → List (List (String × ℚ)) → List (EntRes × ConfRes)
  | _ :: ws, _ :: cs, _ :: ts, n :: ls, es :: ess, sc :: scs =>
    descRankOne numRet n (processScores es sc) :: descLoop numRet ws cs ts ls ess scs
  | _, _, _, _, _, _ => []

/-- `EntityLinkerSep.rank_by_description`; the external reranker
(`entity_ranker.batch_rank_rels`) is the oracle parameter `ranker`. -/
def rankByDescription (cfg : Cfg)
    (ranker : List String → List (List String) → List (List (String × ℚ)))
    (entitySubstrList : List (List String)) (entityOffsetsList : List (ℕ × ℕ))
    (candidateEntitiesList : List (List String)) (tags : List String)
    (entitiesScoresList : List (List (String × (ℚ × ℕ))))
    (sentencesList : List String) (sentencesOffsetsList : List (ℕ × ℕ))
    (substrLens : List ℕ) : List EntRes × List ConfRes :=
  let contexts := (zip3 entitySubstrList entityOffsetsList candidateEntitiesList).map
    (fun t => buildContext cfg sentencesList sentencesOffsetsList t.2.1)
  let scoresList := ranker contexts candidateEntitiesList
  let results := descLoop cfg.numEntitiesToReturn entitySubstrList candidateEntitiesList tags
    substrLens entitiesScoresList scoresList
  (results.map Prod.fst, results.map Prod.snd)

/-! ## `link_entities` (lines 428-620) -/

/-- The per-document body of the big zip loop (lines 518-618). -/
def linkDoc (cfg : Cfg)
    (ranker : List String → List (List String) → List (List (String × ℚ)))
    (ws : List (List String)) (offs : List (ℕ × ℕ)) (sents : List String)
    (soffs : List (ℕ × ℕ)) (items : List WordItem) (tags : List String)
    (rows : List FaissRow) : List EntRes × List ConfRes :=
  if ws.isEmpty then ([], [])
  else
    let dict := accumDict cfg.wordToIdlist cfg.entitiesTypesSets
      (cfg.wordToIdlist.map Prod.fst) cfg.numFaissCells (fndWordsOf items) rows items
    let totals := dict.map Prod.snd
    let substrLens := ws.map List.length
    let fused := List.zipWith sumScores totals substrLens
    let ranked := (ws.zip fused).map (fun p =>
      rankMentionCands cfg.numEntitiesForBertRanking cfg.numEntitiesToReturn
        cfg.entitiesRankingDict p.2)
    if cfg.useDescriptions then
      rankByDescription cfg ranker ws offs (ranked.map (fun r => r.bertCands)) tags
        (ranked.map (fun r => r.escores)) sents soffs substrLens
    else
      (ranked.map (fun r => r.entRes), ranked.map (fun r => r.confRes))

/-- The big zip over documents (stops at the shortest list, like `zip`). -/
def linkDocs (cfg : Cfg)
    (ranker : List String → List (List String) → List (List (String × ℚ))) :
    List (List (List String)) → List (List (ℕ × ℕ)) → List (List String) →
    List (List (ℕ × ℕ)) → List (List WordItem) → List (List String) →
    List (List FaissRow) → List (List EntRes) × List (List ConfRes)
  | ws :: wB, offs :: oB, sents :: sB, soffs :: soB, items :: iB, tags :: tB, rows :: rB =>
    let doc := linkDoc cfg ranker ws offs sents soffs items tags rows
    let rest := linkDocs cfg ranker wB oB sB soB iB tB rB
    (doc.1 :: rest.1, doc.2 :: rest.2)
  | _, _, _, _, _, _, _ => ([], [])

/-- `EntityLinkerSep.link_entities`. The faiss index and the tf-idf
fingerprint encoder are folded into the oracle `faiss`, which answers the
`search(fingerprints(words), K)` call with one `(D, I)` row per queried word. -/
def linkEntities (cfg : Cfg) (morph : String → String)
    (faiss : ℕ → List String → List FaissRow)
    (ranker : List String → List (List String) → List (List (String × ℚ)))
    (entitySubstrBatch : List (List String)) (tagsBatch : List (List String))
    (entityOffsetsBatch : List (List (ℕ × ℕ)))
    (sentencesBatch : List (List String))
    (sentencesOffsetsBatch : List (List (ℕ × ℕ))) :
    List (List EntRes) × List (List ConfRes) :=
  let wordsBatch := entitySubstrBatch.map (fun l => l.map (splitWords cfg.stopwords))
  let itemsBatch := classifyBatch cfg.wordToIdlist morph 0 (wordsBatch.zip tagsBatch)
  let nfPairs := nfWordDocs itemsBatch
  let rowsAll :=
    if nfPairs.isEmpty then []
    else faiss cfg.numFaissCandidateEntities (nfPairs.map Prod.fst)
  let rowsBatch := padRows wordsBatch.length (splitRows (rowsAll.zip (nfPairs.map Prod.snd)))
  linkDocs cfg ranker wordsBatch entityOffsetsBatch sentencesBatch sentencesOffsetsBatch
    itemsBatch tagsBatch rowsBatch

/-! ## `__call__` (entity_linking_sep.py lines 321-426) -/

/-- Line 377-381: whether the mention text contains a deny-listed token. -/
def isDenied (s : String) : Bool := notFoundTokens.any (fun tok => pyContains s tok)

/-- The not-found entity result (lines 386-391). -/
def nfEntry (numRet : ℕ) : EntRes :=
  if numRet = 1 then EntRes.one notFoundStr else EntRes.many [notFoundStr]

/-- The not-found confidence result (lines 386-391). -/
def nfConfEntry (numRet : ℕ) : ConfRes :=
  if numRet = 1 then ConfRes.one (ConfVal.tup (0, 0, 0))
  else ConfRes.many [ConfVal.tup (0, 0, 0)]

/-- The eight per-document lists built by the deny-list split (lines 371-403). -/
structure SplitNF where
  nfSubstr : List String
  nfTags : List String
  nfOffsets : List (ℕ × ℕ)
  nfIds : List EntRes
  nfConf : List ConfRes
  fndSubstr : List String
  fndTags : List String
  fndOffsets : List (ℕ × ℕ)

/-- The all-empty split. -/
def emptySplit : SplitNF := ⟨[], [], [], [], [], [], [], []⟩

/-- The `for entity_substr, tag, entity_offsets in zip(...)` loop of one doc. -/
def splitNFDoc (numRet : ℕ) : List String → List String → List (ℕ × ℕ) → SplitNF
  | [], _, _ => emptySplit
  | _ :: _, [], _ => emptySplit
  | _ :: _, _ :: _, [] => emptySplit
  | m :: ms, t :: ts, o :: os =>
    let r := splitNFDoc numRet ms ts os
    if isDenied m then
      ⟨m :: r.nfSubstr, t :: r.nfTags, o :: r.nfOffsets, nfEntry numRet :: r.nfIds,
        nfConfEntry numRet :: r.nfConf, r.fndSubstr, r.fndTags, r.fndOffsets⟩
    else
      ⟨r.nfSubstr, r.nfTags, r.nfOffsets, r.nfIds, r.nfConf,
        m :: r.fndSubstr, t :: r.fndTags, o :: r.fndOffsets⟩

/-- The outer split loop over documents. -/
def splitNFBatch (numRet : ℕ) :
    List (List String) → List (List String) → List (List (ℕ × ℕ)) → List SplitNF
  | ms :: mB, ts :: tB, os :: oB => splitNFDoc numRet ms ts os :: splitNFBatch numRet mB tB oB
  | _, _, _ => []

/-- The outputs of `__call__` (`return_confidences` only selects which of
these are returned; all are modelled). -/
structure CallOut where
  substrs : List (List String)
  confs : List (List ConfRes)
  offsets : List (List (ℕ × ℕ))
  ids : List (List EntRes)
  tags : List (List String)
  labels : List (List LabelRes)

/-- `EntityLinkerSep.__call__`. Returns `none` when `find_labels` raises
(`NameError` in single-answer mode, see `findLabelsList`); Python list
indexing `fnd_entity_ids_batch[i]` past the end (possible when the caller's
sentence batches are shorter than the mention batch, truncating the zip inside
`link_entities`) is modelled with a `[]` default and excluded by hypotheses. -/
def callSep (cfg : Cfg) (morph : String → String)
    (faiss : ℕ → List String → List FaissRow)
    (ranker : List String → List (List String) → List (List (String × ℚ)))
    (entitySubstrBatch : List (List String))
    (entityOffsetsBatch : List (List (ℕ × ℕ)))
    (tagsBatch : List (List String))
    (sentencesOffsetsBatch : List (List (ℕ × ℕ)))
    (sentencesBatch : List (List String)) : Option CallOut :=
  let splits := splitNFBatch cfg.numEntitiesToReturn entitySubstrBatch tagsBatch
    entityOffsetsBatch
  let link := linkEntities cfg morph faiss ranker (splits.map (fun s => s.fndSubstr))
    (splits.map (fun s => s.fndTags)) (splits.map (fun s => s.fndOffsets))
    sentencesBatch sentencesOffsetsBatch
  let n := splits.length
  let substrs := (List.range n).map (fun i =>
    (splits.getD i emptySplit).nfSubstr ++ (splits.getD i emptySplit).fndSubstr)
  let tags := (List.range n).map (fun i =>
    (splits.getD i emptySplit).nfTags ++ (splits.getD i emptySplit).fndTags)
  let offsets := (List.range n).map (fun i =>
    (splits.getD i emptySplit).nfOffsets ++ (splits.getD i emptySplit).fndOffsets)
  let ids := (List.range n).map (fun i =>
    (splits.getD i emptySplit).nfIds ++ link.1.getD i [])
  let confs := (List.range n).map (fun i =>
    (splits.getD i emptySplit).nfConf ++ link.2.getD i [])
  match findLabels cfg.qToLabel ids with
  | some labels => some ⟨substrs, confs, offsets, ids, tags, labels⟩
  | none => none

/-- The per-document splits computed by `__call__` (named for reasoning). -/
def callSplits (cfg : Cfg) (msB tsB : List (List String))
    (osB : List (List (ℕ × ℕ))) : List SplitNF :=
  splitNFBatch cfg.numEntitiesToReturn msB tsB osB

/-- The `link_entities` result inside `__call__` (named for reasoning). -/
def callLink (cfg : Cfg) (morph : String → String)
    (faiss : ℕ → List String → List FaissRow)
    (ranker : List String → List (List String) → List (List (String × ℚ)))
    (msB tsB : List (List String)) (osB : List (List (ℕ × ℕ)))
    (sentsB : List (List String)) (soB : List (List (ℕ × ℕ))) :
    List (List EntRes) × List (List ConfRes) :=
  linkEntities cfg morph faiss ranker ((callSplits cfg msB tsB osB).map (fun s => s.fndSubstr))
    ((callSplits cfg msB tsB osB).map (fun s => s.fndTags))
    ((callSplits cfg msB tsB osB).map (fun s => s.fndOffsets)) sentsB soB

/-- The per-document id lists of `__call__` (named for reasoning). -/
def callIds (cfg : Cfg) (morph : String → String)
    (faiss : ℕ → List String → List FaissRow)
    (ranker : List String → List (List String) → List (List (String × ℚ)))
    (msB tsB : List (List String)) (osB : List (List (ℕ × ℕ)))
    (sentsB : List (List String)) (soB : List (List (ℕ × ℕ))) : List (List EntRes) :=
  (List.range (callSplits cfg msB tsB osB).length).map (fun i =>
    ((callSplits cfg msB tsB osB).getD i emptySplit).nfIds ++
      (callLink cfg morph faiss ranker msB tsB osB sentsB soB).1.getD i [])

/-- The per-document confidence lists of `__call__` (named for reasoning). -/
def callConfs (cfg : Cfg) (morph : String → String)
    (faiss : ℕ → List String → List FaissRow)
    (ranker : List String → List (List String) → List (List (String × ℚ)))
    (msB tsB : List (List String)) (osB : List (List (ℕ × ℕ)))
    (sentsB : List (List String)) (soB : List (List (ℕ × ℕ))) : List (List ConfRes) :=
  (List.range (callSplits cfg msB tsB osB).length).map (fun i =>
    ((callSplits cfg msB tsB osB).getD i emptySplit).nfConf ++
      (callLink cfg morph faiss ranker msB tsB osB sentsB soB).2.getD i [])

/-- The per-document mention lists of `__call__` (named for reasoning). -/
def callSubstrs (cfg : Cfg) (msB tsB : List (List String))
    (osB : List (List (ℕ × ℕ))) : List (List String) :=
  (List.range (callSplits cfg msB tsB osB).length).map (fun i =>
    ((callSplits cfg msB tsB osB).getD i emptySplit).nfSubstr ++
      ((callSplits cfg msB tsB osB).getD i emptySplit).fndSubstr)

/-- The per-document tag lists of `__call__` (named for reasoning). -/
def callTags (cfg : Cfg) (msB tsB : List (List String))
    (osB : List (List (ℕ × ℕ))) : List (List String) :=
  (List.range (callSplits cfg msB tsB osB).length).map (fun i =>
    ((callSplits cfg msB tsB osB).getD i emptySplit).nfTags ++
      ((callSplits cfg msB tsB osB).getD i emptySplit).fndTags)

/-- The per-document offset lists of `__call__` (named for reasoning). -/
def callOffsets (cfg : Cfg) (msB tsB : List (List String))
    (osB : List (List (ℕ × ℕ))) : List (List (ℕ × ℕ)) :=
  (List.range (callSplits cfg msB tsB osB).length).map (fun i =>
    ((callSplits cfg msB tsB osB).getD i emptySplit).nfOffsets ++
      ((callSplits cfg msB tsB osB).getD i emptySplit).fndOffsets)

/-! # Theorems -/

/-! ## Association-list lemmas -/

@[simp] theorem alistKeys_nil {κ ν : Type} : alistKeys ([] : List (κ × ν)) = [] := rfl

@[simp] theorem alistKeys_cons {κ ν : Type} (a : κ) (v : ν) (t : List (κ × ν)) :
    alistKeys ((a, v) :: t) = a :: alistKeys t := rfl

theorem alistGet?_addScore {κ : Type} [DecidableEq κ] (l : List (κ × ℚ)) (k k' : κ) (s : ℚ) :
    alistGet? (addScore l k s) k' =
      if k = k' then some ((alistGet? l k').getD 0 + s) else alistGet? l k' := by
  induction l with
  | nil => by_cases h : k = k' <;> simp [addScore, alistGet?, h]
  | cons p t ih =>
    obtain ⟨a, v⟩ := p
    by_cases hak : a = k
    · subst hak
      by_cases hk : a = k' <;> simp [addScore, alistGet?, hk]
    · have hka : ¬k = a := fun h => hak h.symm
      by_cases hak' : a = k'
      · subst hak'
        simp [addScore, alistGet?, hak, hka]
      · simp [addScore, alistGet?, hak, hak', ih]

theorem alistGet?_setIfGreater {κ : Type} [DecidableEq κ] (l : List (κ × ℚ)) (k k' : κ) (s : ℚ) :
    alistGet? (setIfGreater l k s) k' =
      if k = k' then
        some ((alistGet? l k').elim s (fun v => max v s))
      else alistGet? l k' := by
  induction l with
  | nil => by_cases h : k = k' <;> simp [setIfGreater, alistGet?, h]
  | cons p t ih =>
    obtain ⟨a, v⟩ := p
    by_cases hak : a = k
    · subst hak
      by_cases hk : a = k'
      · subst hk
        have hmax : (if s > v then s else v) = max v s := by
          rcases le_or_lt s v with h | h
          · simp [max_eq_left h, not_lt.mpr h]
          · simp [max_eq_right h.le, h]
        simp [setIfGreater, alistGet?, hmax]
      · simp [setIfGreater, alistGet?, hk]
    · have hka : ¬k = a := fun h => hak h.symm
      by_cases hak' : a = k'
      · subst hak'
        simp [setIfGreater, alistGet?, hak, hka]
      · simp [setIfGreater, alistGet?, hak, hak', ih]

theorem alistKeys_addScore {κ : Type} [DecidableEq κ] (l : List (κ × ℚ)) (k : κ) (s : ℚ) :
    alistKeys (addScore l k s) =
      if k ∈ alistKeys l then alistKeys l else alistKeys l ++ [k] := by
  induction l with
  | nil => simp [addScore]
  | cons p t ih =>
    obtain ⟨a, v⟩ := p
    by_cases hak : a = k
    · subst hak; simp [addScore]
    · have hka : ¬k = a := fun h => hak h.symm
      by_cases hmem : k ∈ alistKeys t
      · simp [addScore, hak, hka, hmem, ih]
      · simp [addScore, hak, hka, hmem, ih]

theorem alistGet?_isSome_iff_mem {κ ν : Type} [DecidableEq κ] (l : List (κ × ν)) (k : κ) :
    (alistGet? l k).isSome ↔ k ∈ alistKeys l := by
  induction l with
  | nil => simp [alistGet?]
  | cons p t ih =>
    obtain ⟨a, v⟩ := p
    by_cases hak : a = k
    · subst hak; simp [alistGet?]
    · have hka : ¬k = a := fun h => hak h.symm
      simp [alistGet?, hak, hka, ih]

theorem alistNodup_addScore {κ : Type} [DecidableEq κ] (l : List (κ × ℚ)) (k : κ) (s : ℚ)
    (h : (alistKeys l).Nodup) : (alistKeys (addScore l k s)).Nodup := by
  rw [alistKeys_addScore]
  by_cases hmem : k ∈ alistKeys l
  · simpa [hmem]
  · simpa [hmem, List.nodup_append] using h

/-- Membership of an entry in a key-nodup association list is lookup success. -/
theorem mem_iff_alistGet? {κ ν : Type} [DecidableEq κ] (l : List (κ × ν)) (k : κ) (v : ν)
    (h : (alistKeys l).Nodup) : (k, v) ∈ l ↔ alistGet? l k = some v := by
  induction l with
  | nil => simp [alistGet?]
  | cons p t ih =>
    obtain ⟨a, w⟩ := p
    rw [alistKeys_cons, List.nodup_cons] at h
    by_cases hak : a = k
    · subst hak
      have hget : alistGet? ((a, w) :: t) a = some w := by simp [alistGet?]
      rw [hget]
      constructor
      · intro hm
        rcases List.mem_cons.mp hm with hpe | hmem
        · injection hpe with _ h2; rw [h2]
        · exact absurd (List.mem_map_of_mem Prod.fst hmem) h.1
      · intro hv
        injection hv with h3
        rw [← h3]
        exact List.mem_cons_self _ _
    · simp only [alistGet?, if_neg hak, List.mem_cons]
      constructor
      · rintro (hpe | hmem)
        · injection hpe with h1 _; exact absurd h1.symm hak
        · exact (ih h.2).mp hmem
      · intro hv; exact Or.inr ((ih h.2).mpr hv)

/-! ## Maxima lemmas -/

theorem foldl_max_eq (xs : List ℚ) (x : ℚ) :
    xs.foldl max x = (listMax? xs).elim x (max x) := by
  induction xs generalizing x with
  | nil => simp [listMax?]
  | cons y ys ih =>
    simp only [List.foldl_cons, listMax?, Option.elim_some]
    rw [ih (max x y), ih y]
    cases h : listMax? ys with
    | none => simp
    | some m => simp [max_assoc]

theorem listMax?_cons (x : ℚ) (xs : List ℚ) :
    listMax? (x :: xs) = some ((listMax? xs).elim x (max x)) := by
  have h : listMax? (x :: xs) = some (xs.foldl max x) := rfl
  rw [h, foldl_max_eq]

theorem listMax?_eq_none_iff (l : List ℚ) : listMax? l = none ↔ l = [] := by
  cases l with
  | nil => simp [listMax?]
  | cons x xs =>
    simp only [listMax?]
    constructor
    · intro h; exact Option.noConfusion h
    · intro h; exact List.noConfusion h

theorem listMax?_eq_some_iff (l : List ℚ) (m : ℚ) :
    listMax? l = some m ↔ m ∈ l ∧ ∀ x ∈ l, x ≤ m := by
  induction l generalizing m with
  | nil => simp [listMax?]
  | cons x xs ih =>
    rw [listMax?_cons]
    cases h : listMax? xs with
    | none =>
      rw [listMax?_eq_none_iff] at h
      subst h
      simp only [Option.elim_none, Option.some_inj, List.mem_singleton,
        List.mem_cons, List.not_mem_nil, or_false]
      constructor
      · rintro rfl; exact ⟨rfl, by rintro z rfl; exact le_refl z⟩
      · rintro ⟨rfl, _⟩; rfl
    | some mx =>
      have hmx := (ih mx).mp h
      simp only [Option.elim_some, Option.some_inj]
      constructor
      · rintro rfl
        refine ⟨?_, ?_⟩
        · rcases le_total x mx with hle | hle
          · have hmax : max x mx = mx := max_eq_right hle
            rw [hmax]
            exact List.mem_cons_of_mem x hmx.1
          · have hmax : max x mx = x := max_eq_left hle
            rw [hmax]
            exact List.mem_cons_self x xs
        · rintro z hz
          rcases List.mem_cons.mp hz with rfl | hz'
          · exact le_max_left _ _
          · exact le_trans (hmx.2 z hz') (le_max_right x mx)
      · rintro ⟨hmem, hub⟩
        have h1 : x ≤ m := hub x (List.mem_cons_self x xs)
        have h2 : mx ≤ m := hub mx (List.mem_cons_of_mem x hmx.1)
        have h3 : m ≤ max x mx := by
          rcases List.mem_cons.mp hmem with rfl | hm
          · exact le_max_left m mx
          · exact le_trans (hmx.2 m hm) (le_max_right x mx)
        exact le_antisymm (max_le h1 h2) h3

/-- Lists with the same members have the same maximum. -/
theorem listMax?_congr (l₁ l₂ : List ℚ) (h : ∀ x, x ∈ l₁ ↔ x ∈ l₂) :
    listMax? l₁ = listMax? l₂ := by
  cases h₁ : listMax? l₁ with
  | none =>
    rw [listMax?_eq_none_iff] at h₁
    subst h₁
    cases h₂ : listMax? l₂ with
    | none => rfl
    | some m =>
      have hm := (listMax?_eq_some_iff l₂ m).mp h₂
      exact absurd ((h m).mpr hm.1) (List.not_mem_nil m)
  | some m =>
    have hm := (listMax?_eq_some_iff l₁ m).mp h₁
    symm
    rw [listMax?_eq_some_iff]
    exact ⟨(h m).mp hm.1, fun x hx => hm.2 x ((h x).mpr hx)⟩

@[simp] theorem optMax_none_right (a : Option ℚ) : optMax a none = a := by
  cases a <;> rfl

@[simp] theorem optMax_none_left (b : Option ℚ) : optMax none b = b := rfl

/-! ## Stable sort lemmas -/

theorem insDesc_perm {α κ : Type} (key : α → κ) (ltK : κ → κ → Bool) (x : α) (ys : List α) :
    (insDesc key ltK x ys).Perm (x :: ys) := by
  induction ys with
  | nil => exact List.Perm.refl _
  | cons y ys ih =>
    rw [insDesc]
    by_cases h : ltK (key x) (key y)
    · rw [if_pos h]
      exact (ih.cons y).trans (List.Perm.swap x y ys)
    · rw [if_neg h]

theorem sortDesc_perm {α κ : Type} (key : α → κ) (ltK : κ → κ → Bool) (l : List α) :
    (sortDesc key ltK l).Perm l := by
  induction l with
  | nil => exact List.Perm.refl _
  | cons x xs ih =>
    rw [sortDesc]
    exact (insDesc_perm key ltK x (sortDesc key ltK xs)).trans (ih.cons x)

theorem mem_sortDesc {α κ : Type} (key : α → κ) (ltK : κ → κ → Bool) (l : List α) (a : α) :
    a ∈ sortDesc key ltK l ↔ a ∈ l :=
  (sortDesc_perm key ltK l).mem_iff

theorem insDesc_pairwise {α κ : Type} (key : α → κ) (ltK : κ → κ → Bool)
    (hAsym : ∀ a b, ltK a b = true → ltK b a = false)
    (hNegTrans : ∀ a b c, ltK a b = false → ltK b c = false → ltK a c = false)
    (x : α) (ys : List α)
    (hys : ys.Pairwise (fun a b => ltK (key a) (key b) = false)) :
    (insDesc key ltK x ys).Pairwise (fun a b => ltK (key a) (key b) = false) := by
  induction ys with
  | nil => simp [insDesc]
  | cons y ys ih =>
    rw [List.pairwise_cons] at hys
    rw [insDesc]
    by_cases h : ltK (key x) (key y)
    · rw [if_pos h]
      rw [List.pairwise_cons]
      constructor
      · intro z hz
        have hmem := (insDesc_perm key ltK x ys).mem_iff.mp hz
        rcases List.mem_cons.mp hmem with rfl | hz'
        · exact hAsym _ _ h
        · exact hys.1 z hz'
      · exact ih hys.2
    · rw [if_neg h]
      have hxy : ltK (key x) (key y) = false := by
        exact Bool.eq_false_iff.mpr h
      rw [List.pairwise_cons]
      constructor
      · intro z hz
        rcases List.mem_cons.mp hz with rfl | hz'
        · exact hxy
        · exact hNegTrans _ _ _ hxy (hys.1 z hz')
      · exact List.pairwise_cons.mpr ⟨hys.1, hys.2⟩

theorem sortDesc_pairwise {α κ : Type} (key : α → κ) (ltK : κ → κ → Bool)
    (hAsym : ∀ a b, ltK a b = true → ltK b a = false)
    (hNegTrans : ∀ a b c, ltK a b = false → ltK b c = false → ltK a c = false)
    (l : List α) :
    (sortDesc key ltK l).Pairwise (fun a b => ltK (key a) (key b) = false) := by
  induction l with
  | nil => simp [sortDesc]
  | cons x xs ih =>
    rw [sortDesc]
    exact insDesc_pairwise key ltK hAsym hNegTrans x _ ih

theorem insDesc_filter_key {α κ : Type} [DecidableEq κ] (key : α → κ) (ltK : κ → κ → Bool)
    (hIrrefl : ∀ a, ltK a a = false) (x : α) (ys : List α) (k : κ) :
    (insDesc key ltK x ys).filter (fun a => key a = k) =
      (if key x = k then [x] else []) ++ ys.filter (fun a => key a = k) := by
  induction ys with
  | nil => by_cases h : key x = k <;> simp [insDesc, h]
  | cons y ys ih =>
    rw [insDesc]
    by_cases h : ltK (key x) (key y)
    · rw [if_pos h]
      by_cases hx : key x = k
      · have hy : ¬key y = k := by
          intro hy
          rw [hx, ← hy, hIrrefl (key y)] at h
          exact Bool.noConfusion h
        rw [List.filter_cons, if_neg (by simp [hy]), ih, if_pos hx,
          List.filter_cons, if_neg (by simp [hy])]
      · by_cases hy : key y = k
        · rw [List.filter_cons, if_pos (by simp [hy]), ih, if_neg hx,
            List.filter_cons, if_pos (by simp [hy])]
          simp
        · rw [List.filter_cons, if_neg (by simp [hy]), ih, if_neg hx,
            List.filter_cons, if_neg (by simp [hy])]
    · rw [if_neg h]
      by_cases hx : key x = k
      · rw [List.filter_cons, if_pos (by simp [hx]), if_pos hx]
        simp
      · rw [List.filter_cons, if_neg (by simp [hx]), if_neg hx]
        simp

theorem sortDesc_filter_key {α κ : Type} [DecidableEq κ] (key : α → κ) (ltK : κ → κ → Bool)
    (hIrrefl : ∀ a, ltK a a = false) (l : List α) (k : κ) :
    (sortDesc key ltK l).filter (fun a => key a = k) = l.filter (fun a => key a = k) := by
  induction l with
  | nil => rfl
  | cons x xs ih =>
    rw [sortDesc, insDesc_filter_key key ltK hIrrefl x _ k, ih]
    by_cases h : key x = k
    · rw [if_pos h, List.filter_cons, if_pos (by simp [h])]
      simp
    · rw [if_neg h, List.filter_cons, if_neg (by simp [h])]
      simp

/-! ## Lexicographic comparison lemmas -/

theorem lexStepB_eq_true_iff {α β : Type} [LinearOrder α] (g : β → β → Bool) (p q : α × β) :
    lexStepB g p q = true ↔ (p.1 < q.1 ∨ (p.1 = q.1 ∧ g p.2 q.2 = true)) := by
  simp [lexStepB]

theorem lexStepB_eq_false_iff {α β : Type} [LinearOrder α] (g : β → β → Bool) (p q : α × β) :
    lexStepB g p q = false ↔ (¬p.1 < q.1 ∧ (¬p.1 = q.1 ∨ g p.2 q.2 = false)) := by
  rw [← Bool.not_eq_true, lexStepB_eq_true_iff]
  constructor
  · intro h
    rw [not_or] at h
    refine ⟨h.1, ?_⟩
    by_cases he : p.1 = q.1
    · have hg := h.2
      rw [Classical.not_and_iff_or_not_not] at hg
      rcases hg with hg | hg
      · exact absurd he hg
      · exact Or.inr (Bool.eq_false_iff.mpr hg)
    · exact Or.inl he
  · rintro ⟨h1, h2⟩ (hc | ⟨he, hg⟩)
    · exact h1 hc
    · rcases h2 with h2 | h2
      · exact h2 he
      · rw [h2] at hg; exact Bool.noConfusion hg

theorem natLtB_irrefl (a : ℕ) : natLtB a a = false := by simp [natLtB]

theorem natLtB_asymm (a b : ℕ) (h : natLtB a b = true) : natLtB b a = false := by
  simp [natLtB] at h ⊢
  omega

theorem natLtB_negtrans (a b c : ℕ) (h1 : natLtB a b = false) (h2 : natLtB b c = false) :
    natLtB a c = false := by
  simp [natLtB] at h1 h2 ⊢
  omega

theorem lexStepB_irrefl {α β : Type} [LinearOrder α] (g : β → β → Bool)
    (hg : ∀ a, g a a = false) (p : α × β) : lexStepB g p p = false := by
  rw [lexStepB_eq_false_iff]
  exact ⟨lt_irrefl _, Or.inr (hg p.2)⟩

theorem lexStepB_asymm {α β : Type} [LinearOrder α] (g : β → β → Bool)
    (hg : ∀ a b, g a b = true → g b a = false) (p q : α × β)
    (h : lexStepB g p q = true) : lexStepB g q p = false := by
  rw [lexStepB_eq_true_iff] at h
  rw [lexStepB_eq_false_iff]
  rcases h with h | ⟨he, hgpq⟩
  · exact ⟨not_lt.mpr h.le, Or.inl (ne_of_gt h)⟩
  · exact ⟨fun hc => absurd (he ▸ hc) (lt_irrefl _), Or.inr (hg _ _ hgpq)⟩

theorem lexStepB_negtrans {α β : Type} [LinearOrder α] (g : β → β → Bool)
    (hg : ∀ a b c, g a b = false → g b c = false → g a c = false) (p q r : α × β)
    (h1 : lexStepB g p q = false) (h2 : lexStepB g q r = false) :
    lexStepB g p r = false := by
  rw [lexStepB_eq_false_iff] at h1 h2 ⊢
  obtain ⟨h1a, h1b⟩ := h1
  obtain ⟨h2a, h2b⟩ := h2
  have hqp : q.1 ≤ p.1 := not_lt.mp h1a
  have hrq : r.1 ≤ q.1 := not_lt.mp h2a
  refine ⟨not_lt.mpr (le_trans hrq hqp), ?_⟩
  by_cases hpr : p.1 = r.1
  · have hpq : p.1 ≤ q.1 := by rw [hpr]; exact hrq
    have hqp' : q.1 = p.1 := le_antisymm hqp hpq
    have hb1 : g p.2 q.2 = false := by
      rcases h1b with h | h
      · exact absurd hqp'.symm h
      · exact h
    have hb2 : g q.2 r.2 = false := by
      rcases h2b with h | h
      · exact absurd (by rw [hqp', hpr] : q.1 = r.1) h
      · exact h
    exact Or.inr (hg _ _ _ hb1 hb2)
  · exact Or.inl hpr

/-! ## `sum_scores` lemmas and claim C3 -/

theorem pairSum_cons (e : String) (l : ℕ) (s : ℚ) (rest : List (String × ℕ × ℚ))
    (k : String × ℕ) :
    pairSum ((e, l, s) :: rest) k = (if (e, l) = k then s else 0) + pairSum rest k := by
  obtain ⟨ke, kl⟩ := k
  by_cases h : (e, l) = (ke, kl)
  · rw [Prod.mk.injEq] at h
    simp [pairSum, scoreSum, h.1, h.2, Prod.mk.injEq]
  · rw [Prod.mk.injEq] at h
    rw [Classical.not_and_iff_or_not_not] at h
    rcases h with h | h
    · simp [pairSum, scoreSum, h, Prod.mk.injEq]
    · simp [pairSum, scoreSum, h, Prod.mk.injEq]

theorem alistGet?_sumScoresAcc (cands : List (String × ℕ × ℚ))
    (acc : List ((String × ℕ) × ℚ)) (k : String × ℕ) :
    alistGet? (sumScoresAcc acc cands) k =
      match alistGet? acc k with
      | some v => some (v + pairSum cands k)
      | none => if k ∈ candPairs cands then some (pairSum cands k) else none := by
  induction cands generalizing acc with
  | nil =>
    have hp : pairSum [] k = 0 := by simp [pairSum, scoreSum]
    cases h : alistGet? acc k <;> simp [sumScoresAcc, hp, h, candPairs]
  | cons c rest ih =>
    obtain ⟨e, l, s⟩ := c
    have hstep : sumScoresAcc acc ((e, l, s) :: rest) = sumScoresAcc (addScore acc (e, l) s) rest := rfl
    rw [hstep, ih, alistGet?_addScore, pairSum_cons]
    by_cases hk : (e, l) = k
    · rw [if_pos hk, if_pos hk]
      cases h : alistGet? acc k with
      | none =>
        have hmem : k ∈ candPairs ((e, l, s) :: rest) := by
          simp [candPairs]
          left
          rw [← hk]
        simp [h, hmem, add_assoc]
      | some v => simp [h, add_assoc]
    · rw [if_neg hk, if_neg hk]
      have hpairs : (k ∈ candPairs ((e, l, s) :: rest)) ↔ k ∈ candPairs rest := by
        simp only [candPairs, List.map_cons, List.mem_cons]
        constructor
        · rintro (h | h)
          · exact absurd h.symm hk
          · exact h
        · intro h; exact Or.inr h
      cases h : alistGet? acc k with
      | none =>
        by_cases hmem : k ∈ candPairs rest
        · simp [hmem, hpairs]
        · simp [hmem, hpairs]
      | some v => simp [zero_add]

theorem sumScoresAcc_nodup (cands : List (String × ℕ × ℚ)) (acc : List ((String × ℕ) × ℚ))
    (h : (alistKeys acc).Nodup) : (alistKeys (sumScoresAcc acc cands)).Nodup := by
  induction cands generalizing acc with
  | nil => exact h
  | cons c rest ih =>
    obtain ⟨e, l, s⟩ := c
    exact ih (addScore acc (e, l) s) (alistNodup_addScore acc (e, l) s h)

theorem alistGet?_sumScoresMax (n : ℕ) (sums : List ((String × ℕ) × ℚ))
    (acc : List (String × ℚ)) (e : String) :
    alistGet? (sumScoresMax n acc sums) e =
      optMax (alistGet? acc e)
        (listMax? (sums.filterMap
          (fun p => if p.1.1 = e then some (normScore n p.1.2 p.2) else none))) := by
  induction sums generalizing acc with
  | nil => simp [sumScoresMax, listMax?]
  | cons p rest ih =>
    obtain ⟨⟨e', l⟩, v⟩ := p
    have hstep : sumScoresMax n acc (((e', l), v) :: rest) =
        sumScoresMax n (setIfGreater acc e' (normScore n l v)) rest := rfl
    rw [hstep, ih, alistGet?_setIfGreater]
    by_cases he : e' = e
    · rw [if_pos he]
      subst he
      have hfm : (((e', l), v) :: rest).filterMap
          (fun p => if p.1.1 = e' then some (normScore n p.1.2 p.2) else none) =
          normScore n l v :: rest.filterMap
            (fun p => if p.1.1 = e' then some (normScore n p.1.2 p.2) else none) := by
        simp [List.filterMap_cons]
      rw [hfm, listMax?_cons]
      cases ha : alistGet? acc e' with
      | none =>
        cases hr : listMax? (rest.filterMap
            (fun p => if p.1.1 = e' then some (normScore n p.1.2 p.2) else none)) with
        | none => simp [optMax]
        | some b => simp [optMax]
      | some a =>
        cases hr : listMax? (rest.filterMap
            (fun p => if p.1.1 = e' then some (normScore n p.1.2 p.2) else none)) with
        | none => simp [optMax]
        | some b => simp [optMax, max_assoc]
    · rw [if_neg he]
      have hfm : (((e', l), v) :: rest).filterMap
          (fun p => if p.1.1 = e then some (normScore n p.1.2 p.2) else none) =
          rest.filterMap
            (fun p => if p.1.1 = e then some (normScore n p.1.2 p.2) else none) := by
        simp [List.filterMap_cons, he]
      rw [hfm]

/-- Claim C3: for every list of per-word candidate triples
`(entity id, label length, similarity score)` and mention word count
`substr_len`, `sum_scores` accumulates the similarity scores per
`(entity id, label length)` pair, assigns each pair the normalized score
`min(score_sum, label_len) / max(substr_len, label_len)`, and when the same
entity id occurs under several label lengths it keeps only the maximum
normalized score: the final score of an entity id `e` is exactly the maximum,
over the candidate triples proposing `e`, of the normalized accumulated score
of their `(e, label length)` group (and `e` is absent exactly when no triple
proposes it). -/
theorem C3_sum_scores_characterization (cands : List (String × ℕ × ℚ)) (n : ℕ) (e : String) :
    alistGet? (sumScores cands n) e =
      listMax? (cands.filterMap
        (fun c => if c.1 = e then some (normScore n c.2.1 (scoreSum cands e c.2.1)) else none)) := by
  have hnodup : (alistKeys (sumScoresAcc [] cands)).Nodup := sumScoresAcc_nodup cands [] (by simp)
  have hmax := alistGet?_sumScoresMax n (sumScoresAcc [] cands) [] e
  have hempty : alistGet? ([] : List (String × ℚ)) e = none := rfl
  rw [sumScores, hmax, hempty, optMax_none_left]
  apply listMax?_congr
  intro v
  rw [List.mem_filterMap, List.mem_filterMap]
  constructor
  · rintro ⟨⟨⟨e', l⟩, ssum⟩, hpmem, hpv⟩
    by_cases he : e' = e
    · subst he
      rw [if_pos rfl, Option.some_inj] at hpv
      have hget := (mem_iff_alistGet? _ _ _ hnodup).mp hpmem
      rw [alistGet?_sumScoresAcc] at hget
      simp only [alistGet?] at hget
      by_cases hmem : (e', l) ∈ candPairs cands
      · rw [if_pos hmem, Option.some_inj] at hget
        obtain ⟨c, hc, hcp⟩ := List.mem_map.mp hmem
        refine ⟨c, hc, ?_⟩
        have hc1 : c.1 = e' := congrArg Prod.fst hcp
        have hc2 : c.2.1 = l := congrArg Prod.snd hcp
        rw [if_pos hc1, Option.some_inj, hc2]
        have hss : scoreSum cands e' l = ssum := hget
        rw [hss]
        exact hpv
      · rw [if_neg hmem] at hget
        exact Option.noConfusion hget
    · rw [if_neg he] at hpv
      exact Option.noConfusion hpv
  · rintro ⟨c, hc, hcv⟩
    by_cases he : c.1 = e
    · rw [if_pos he, Option.some_inj] at hcv
      have hmem : (e, c.2.1) ∈ candPairs cands := by
        rw [← he]
        exact List.mem_map_of_mem (fun c => (c.1, c.2.1)) hc
      have hget : alistGet? (sumScoresAcc [] cands) (e, c.2.1) =
          some (pairSum cands (e, c.2.1)) := by
        rw [alistGet?_sumScoresAcc]
        simp only [alistGet?]
        rw [if_pos hmem]
      have hentry := (mem_iff_alistGet? _ _ _ hnodup).mpr hget
      refine ⟨((e, c.2.1), pairSum cands (e, c.2.1)), hentry, ?_⟩
      rw [if_pos rfl, Option.some_inj, ← hcv]
      rfl
    · rw [if_neg he] at hcv
      exact Option.noConfusion hcv

/-! ## Popularity ranker lemmas and claim C4 -/

theorem candLtB_false_imp (a b : String × ℚ × ℕ)
    (h : lexStepB natLtB (candKey a) (candKey b) = false) :
    ¬(a.2.1 < b.2.1 ∨ (a.2.1 = b.2.1 ∧ a.2.2 < b.2.2)) := by
  rw [lexStepB_eq_false_iff] at h
  rintro (hc | ⟨he, hn⟩)
  · exact h.1 hc
  · rcases h.2 with h2 | h2
    · exact h2 he
    · rw [natLtB] at h2
      rw [decide_eq_false_iff_not] at h2
      exact h2 hn

theorem mem_attachPop (rdict : List (String × ℕ)) (cands : List (String × ℚ))
    (c : String × ℚ × ℕ) (h : c ∈ attachPop rdict cands) :
    c.2.2 = alistGetD rdict c.1 0 ∧ (c.1, c.2.1) ∈ cands := by
  rw [attachPop, List.mem_map] at h
  obtain ⟨p, hp, hpe⟩ := h
  subst hpe
  exact ⟨rfl, hp⟩

/-- Claim C4: for every mention's fused candidate list, the pre-rerank ranking
attaches each entity's popularity score (`entities_ranking_dict.get(id, 0)`,
hence `0` when absent), sorts descending with substring score as the primary
key and popularity as tiebreaker while candidates equal on both keys keep
insertion order (stability stated via key-filter preservation), and truncates
the id list first to `num_entities_for_bert_ranking` and then to
`num_entities_to_return`, emitting a single bare id when the latter equals 1
and candidates remain. -/
theorem C4_popularity_ranker (rdict : List (String × ℕ)) (cands : List (String × ℚ))
    (numBert numRet : ℕ) :
    (∀ c ∈ rankSorted rdict cands, c.2.2 = alistGetD rdict c.1 0 ∧ (c.1, c.2.1) ∈ cands)
    ∧ (rankSorted rdict cands).Perm (attachPop rdict cands)
    ∧ (rankSorted rdict cands).Pairwise
        (fun a b => ¬(a.2.1 < b.2.1 ∨ (a.2.1 = b.2.1 ∧ a.2.2 < b.2.2)))
    ∧ (∀ k : ℚ × ℕ, (rankSorted rdict cands).filter (fun c => candKey c = k)
        = (attachPop rdict cands).filter (fun c => candKey c = k))
    ∧ (rankMentionCands numBert numRet rdict cands).bertCands
        = ((rankSorted rdict cands).map (fun c => c.1)).take numBert
    ∧ (numRet ≠ 1 → (rankMentionCands numBert numRet rdict cands).entRes
        = EntRes.many ((((rankSorted rdict cands).map (fun c => c.1)).take numBert).take numRet))
    ∧ (numRet = 1 → (((rankSorted rdict cands).map (fun c => c.1)).take numBert) ≠ [] →
        (rankMentionCands numBert numRet rdict cands).entRes
          = EntRes.one ((((rankSorted rdict cands).map (fun c => c.1)).take numBert).headD "")) := by
  refine ⟨?_, ?_, ?_, ?_, ?_, ?_, ?_⟩
  · intro c hc
    exact mem_attachPop rdict cands c ((mem_sortDesc _ _ _ c).mp hc)
  · exact sortDesc_perm _ _ _
  · have hpw := sortDesc_pairwise candKey (lexStepB natLtB)
      (fun a b h => lexStepB_asymm natLtB natLtB_asymm a b h)
      (fun a b c h1 h2 => lexStepB_negtrans natLtB natLtB_negtrans a b c h1 h2)
      (attachPop rdict cands)
    exact hpw.imp (fun h => candLtB_false_imp _ _ h)
  · intro k
    exact sortDesc_filter_key candKey (lexStepB natLtB)
      (fun a => lexStepB_irrefl natLtB natLtB_irrefl a) (attachPop rdict cands) k
  · rfl
  · intro h
    have hcond : ¬(numRet = 1 ∧
        (((rankSorted rdict cands).map (fun c => c.1)).take numBert) ≠ []) :=
      fun hc => h hc.1
    simp only [rankMentionCands]
    rw [if_neg hcond]
  · intro h1 h2
    have hcond : numRet = 1 ∧
        (((rankSorted rdict cands).map (fun c => c.1)).take numBert) ≠ [] := ⟨h1, h2⟩
    simp only [rankMentionCands]
    rw [if_pos hcond]

/-- Witness for C4 at a concrete input: popularity 5 is attached to `Q2` from
the table, `Q2` (substring score 1, popularity 5) is ranked before `Q1`
(substring score 1, popularity 0), and the truncated list is emitted. -/
theorem C4_witness :
    (("Q2", (1 : ℚ), 5).2.2 = alistGetD [("Q2", 5)] ("Q2", (1 : ℚ), 5).1 0
      ∧ (("Q2", (1 : ℚ), 5).1, ("Q2", (1 : ℚ), 5).2.1) ∈ [("Q1", (1 : ℚ)), ("Q2", (1 : ℚ))])
    ∧ (rankMentionCands 50 10 [("Q2", 5)] [("Q1", 1), ("Q2", 1)]).entRes
        = EntRes.many ["Q2", "Q1"] := by
  constructor
  · exact (C4_popularity_ranker [("Q2", 5)] [("Q1", 1), ("Q2", 1)] 50 10).1
      ("Q2", (1 : ℚ), 5) (by decide)
  · have h := (C4_popularity_ranker [("Q2", 5)] [("Q1", 1), ("Q2", 1)] 50 10).2.2.2.2.2.1
      (by decide)
    rw [h]
    decide

/-! ## Reranker score phase lemmas and claims C5, C6 -/

theorem round2_le_thousandth (q : ℚ) (h : q ≤ 1/1000) : round2 q ≤ 1/1000 := by
  have h100 : q * 100 ≤ 1/10 := by linarith
  have hr : round (q * 100) ≤ 0 := by
    rw [round_eq]
    have hle : q * 100 + 1/2 ≤ (3 : ℚ)/5 := by linarith
    have hfl : ⌊q * 100 + 1/2⌋ ≤ ⌊(3 : ℚ)/5⌋ := Int.floor_mono hle
    have h35 : ⌊(3 : ℚ)/5⌋ = 0 := by norm_num
    rw [h35] at hfl
    exact hfl
  rw [round2]
  have hc : ((round (q * 100) : ℤ) : ℚ) ≤ 0 := by exact_mod_cast hr
  linarith

theorem mem_processScores (escores : List (String × (ℚ × ℕ))) (scores : List (String × ℚ))
    (x : ScoredEnt) (h : x ∈ processScores escores scores) :
    (1 : ℚ)/1000 < x.2.2.2 ∧ pyStartsWith x.1 "Q" = true ∧
      x ∈ entitiesWithScores escores scores := by
  rw [processScores, sortScored] at h
  have h2 := (mem_sortDesc _ _ _ x).mp h
  rw [filterScored, List.mem_filter] at h2
  obtain ⟨hm, hp⟩ := h2
  rw [Bool.and_eq_true] at hp
  refine ⟨?_, hp.2, hm⟩
  have hd := hp.1
  rw [decide_eq_true_eq] at hd
  exact hd

theorem scoredLtB_false_imp (a b : ScoredEnt)
    (h : lexStepB (lexStepB natLtB) (scoredKey a) (scoredKey b) = false) :
    ¬(a.2.1 < b.2.1 ∨ (a.2.1 = b.2.1 ∧
      (a.2.2.2 < b.2.2.2 ∨ (a.2.2.2 = b.2.2.2 ∧ a.2.2.1 < b.2.2.1)))) := by
  rw [lexStepB_eq_false_iff] at h
  rintro (hc | ⟨he, hin⟩)
  · exact h.1 hc
  · rcases h.2 with h2 | h2
    · exact h2 he
    · rw [lexStepB_eq_false_iff] at h2
      rcases hin with hrr | ⟨hre, hpp⟩
      · exact h2.1 hrr
      · rcases h2.2 with h3 | h3
        · exact h3 hre
        · rw [natLtB, decide_eq_false_iff_not] at h3
          exact h3 hpp

/-- Claim C6: for every mention processed by the contextual reranker adapter,
every surviving row has (rounded) rerank score above 0.001 and an id starting
with the knowledge-base prefix "Q"; a reranker pair with raw score ≤ 0.001 is
discarded, as is every pair whose id does not start with "Q"; and the
surviving rows are sorted descending by (substring score, rerank score,
popularity score). -/
theorem C6_rerank_filter_sort (escores : List (String × (ℚ × ℕ))) (scores : List (String × ℚ)) :
    (∀ x ∈ processScores escores scores, (1 : ℚ)/1000 < x.2.2.2 ∧ pyStartsWith x.1 "Q" = true)
    ∧ (∀ p ∈ scores, p.2 ≤ 1/1000 →
        (p.1, round2 (alistGetD escores p.1 ((0 : ℚ), (0 : ℕ))).1,
          (alistGetD escores p.1 ((0 : ℚ), (0 : ℕ))).2, round2 p.2)
          ∉ processScores escores scores)
    ∧ (∀ p ∈ scores, pyStartsWith p.1 "Q" = false →
        ∀ x ∈ processScores escores scores, x.1 ≠ p.1)
    ∧ (processScores escores scores).Pairwise (fun a b =>
        ¬(a.2.1 < b.2.1 ∨ (a.2.1 = b.2.1 ∧
          (a.2.2.2 < b.2.2.2 ∨ (a.2.2.2 = b.2.2.2 ∧ a.2.2.1 < b.2.2.1))))) := by
  refine ⟨?_, ?_, ?_, ?_⟩
  · intro x hx
    have h := mem_processScores escores scores x hx
    exact ⟨h.1, h.2.1⟩
  · intro p hp hple hmem
    have h := mem_processScores escores scores _ hmem
    have hround : round2 p.2 ≤ 1/1000 := round2_le_thousandth p.2 hple
    have hgt := h.1
    simp only at hgt
    exact absurd (lt_of_lt_of_le hgt hround) (lt_irrefl _)
  · intro p hp hpw x hx heq
    have h := mem_processScores escores scores x hx
    have ht := h.2.1
    rw [heq, hpw] at ht
    exact Bool.noConfusion ht
  · have hpw := sortDesc_pairwise scoredKey (lexStepB (lexStepB natLtB))
      (fun a b h => lexStepB_asymm _ (fun a b h => lexStepB_asymm natLtB natLtB_asymm a b h) a b h)
      (fun a b c h1 h2 => lexStepB_negtrans _
        (fun a b c h1 h2 => lexStepB_negtrans natLtB natLtB_negtrans a b c h1 h2) a b c h1 h2)
      (filterScored (entitiesWithScores escores scores))
    exact hpw.imp (fun h => scoredLtB_false_imp _ _ h)

/-- Witness for C6 at a concrete input: the surviving row for `Q1` satisfies
the filter conditions, and the reranker pair `("Q3", 1/2000)` (raw score below
0.001) is discarded. -/
theorem C6_witness :
    ((1 : ℚ)/1000 < ("Q1", (1 : ℚ), (7 : ℕ), (9 : ℚ)/10).2.2.2
      ∧ pyStartsWith ("Q1", (1 : ℚ), (7 : ℕ), (9 : ℚ)/10).1 "Q" = true)
    ∧ (("Q3", round2 (alistGetD [("Q1", ((1 : ℚ), (7 : ℕ)))] "Q3" ((0 : ℚ), (0 : ℕ))).1,
        (alistGetD [("Q1", ((1 : ℚ), (7 : ℕ)))] "Q3" ((0 : ℚ), (0 : ℕ))).2,
        round2 ((1 : ℚ)/2000))
        ∉ processScores [("Q1", ((1 : ℚ), (7 : ℕ)))]
            [("Q1", (9 : ℚ)/10), ("X1", (9 : ℚ)/10), ("Q3", (1 : ℚ)/2000)]) := by
  have hP : processScores [("Q1", ((1 : ℚ), (7 : ℕ)))]
      [("Q1", (9 : ℚ)/10), ("X1", (9 : ℚ)/10), ("Q3", (1 : ℚ)/2000)]
      = [("Q1", (1 : ℚ), (7 : ℕ), (9 : ℚ)/10)] := by
    norm_num [processScores, entitiesWithScores, filterScored, sortScored, sortDesc, insDesc,
      round2, round_eq, alistGetD, alistGet?, List.filter, pyStartsWith]
  constructor
  · exact (C6_rerank_filter_sort [("Q1", ((1 : ℚ), (7 : ℕ)))]
      [("Q1", (9 : ℚ)/10), ("X1", (9 : ℚ)/10), ("Q3", (1 : ℚ)/2000)]).1
      ("Q1", (1 : ℚ), (7 : ℕ), (9 : ℚ)/10)
      (by rw [hP]; exact List.mem_singleton_self _)
  · exact (C6_rerank_filter_sort [("Q1", ((1 : ℚ), (7 : ℕ)))]
      [("Q1", (9 : ℚ)/10), ("X1", (9 : ℚ)/10), ("Q3", (1 : ℚ)/2000)]).2.1
      ("Q3", (1 : ℚ)/2000)
      (List.mem_cons_of_mem _ (List.mem_cons_of_mem _ (List.mem_singleton_self _)))
      (by norm_num)

theorem descRankOne_of_top_sentinel (numRet substrLen : ℕ) (ews : List ScoredEnt)
    (h : descTop substrLen ews = ([notFoundStr], [((0 : ℚ), (0 : ℕ), (0 : ℚ))])) :
    descRankOne numRet substrLen ews = sentinelRes numRet := by
  simp only [descRankOne]
  rw [h]
  by_cases hn : numRet = 1
  · have hcond : numRet = 1 ∧ ([notFoundStr], [((0 : ℚ), (0 : ℕ), (0 : ℚ))]).1 ≠ ([] : List String) :=
      ⟨hn, by simp⟩
    rw [if_pos hcond, sentinelRes, if_pos hn]
    rfl
  · have hcond : ¬(numRet = 1 ∧ ([notFoundStr], [((0 : ℚ), (0 : ℕ), (0 : ℚ))]).1 ≠ ([] : List String)) :=
      fun hc => hn hc.1
    rw [if_neg hcond, sentinelRes, if_neg hn]
    rfl

/-- Claim C5, amended: after reranking, a mention's ranking is replaced by the
not-found sentinel with confidence `(0.0, 0, 0.0)` exactly when: no rows remain
after filtering, or the mention has one word and the top row's (rounded)
substring score is below 1.0, or the top row triggers one of the
low-confidence combinations — `(rerank < 0.11 and pop < 90)`, substring
score < 0.3, `(rerank < 0.13 and pop < 20)`, `(rerank < 0.3 and pop < 4)`, or
substring score exactly 0.5; otherwise the sorted row list truncated to the
return budget is emitted. -/
theorem C5_acceptance_rule (numRet substrLen : ℕ) (escores : List (String × (ℚ × ℕ)))
    (scores : List (String × ℚ)) :
    (rejectCond substrLen (processScores escores scores) →
      descRankOne numRet substrLen (processScores escores scores) = sentinelRes numRet)
    ∧ (¬rejectCond substrLen (processScores escores scores) →
      descRankOne numRet substrLen (processScores escores scores)
        = emitRes numRet (processScores escores scores)) := by
  constructor
  · intro hrej
    apply descRankOne_of_top_sentinel
    cases hews : processScores escores scores with
    | nil => rfl
    | cons x rest =>
      rw [hews] at hrej
      simp only [rejectCond] at hrej
      rw [descTop]
      rcases hrej with h | h
      · rw [if_pos h]
      · by_cases hA : substrLen = 1 ∧ x.2.1 < 1
        · rw [if_pos hA]
        · rw [if_neg hA, if_pos h]
  · intro hacc
    cases hews : processScores escores scores with
    | nil =>
      rw [hews] at hacc
      exact absurd trivial hacc
    | cons x rest =>
      rw [hews] at hacc
      simp only [rejectCond] at hacc
      rw [not_or] at hacc
      have htop : descTop substrLen (x :: rest) =
          ((x :: rest).map (fun s => s.1),
            (x :: rest).map (fun s => (s.2.1, s.2.2.1, s.2.2.2))) := by
        rw [descTop, if_neg hacc.1, if_neg hacc.2]
      simp only [descRankOne]
      rw [htop, emitRes]

/-- Counterexample to C5 as stated: with a single surviving row
`("Q1", substr 0.5, pop 100, rerank 0.9)` and a two-word mention, none of the
claim's sentinel conditions holds (rows remain, the mention is not single-word,
and the top row's (rerank, popularity) clears every tier of the claim's
confidence floor), yet the code emits the sentinel because of the
`entities_with_scores[0][1] == 0.5` branch the claim omits. -/
theorem C5_counterexample :
    descRankOne 10 2 (processScores [("Q1", ((1 : ℚ)/2, (100 : ℕ)))] [("Q1", (9 : ℚ)/10)])
      = (EntRes.many [notFoundStr], ConfRes.many [ConfVal.tup (0, 0, 0)])
    ∧ processScores [("Q1", ((1 : ℚ)/2, (100 : ℕ)))] [("Q1", (9 : ℚ)/10)]
      = [("Q1", (1 : ℚ)/2, (100 : ℕ), (9 : ℚ)/10)]
    ∧ ¬specTierReject ("Q1", (1 : ℚ)/2, (100 : ℕ), (9 : ℚ)/10)
    ∧ (2 : ℕ) ≠ 1 := by
  have hP : processScores [("Q1", ((1 : ℚ)/2, (100 : ℕ)))] [("Q1", (9 : ℚ)/10)]
      = [("Q1", (1 : ℚ)/2, (100 : ℕ), (9 : ℚ)/10)] := by
    norm_num [processScores, entitiesWithScores, filterScored, sortScored, sortDesc, insDesc,
      round2, round_eq, alistGetD, alistGet?, List.filter, pyStartsWith]
  refine ⟨?_, hP, ?_, by decide⟩
  · rw [hP]
    have hrej : codeTierReject ("Q1", (1 : ℚ)/2, (100 : ℕ), (9 : ℚ)/10) :=
      Or.inr (Or.inr (Or.inr (Or.inr rfl)))
    have hA : ¬((2 : ℕ) = 1 ∧ (("Q1", (1 : ℚ)/2, (100 : ℕ), (9 : ℚ)/10) : ScoredEnt).2.1 < 1) :=
      fun hc => absurd hc.1 (by decide)
    have htop : descTop 2 [(("Q1", (1 : ℚ)/2, (100 : ℕ), (9 : ℚ)/10) : ScoredEnt)]
        = ([notFoundStr], [((0 : ℚ), (0 : ℕ), (0 : ℚ))]) := by
      rw [descTop, if_neg hA, if_pos hrej]
    simp only [descRankOne]
    rw [htop]
    norm_num [sentinelRes]
  · intro h
    rcases h with ⟨h1, _⟩ | ⟨h1, _⟩ | ⟨h1, _⟩ <;> norm_num at h1

/-- Witness for C5 at a concrete accepted input: with a surviving row
`("Q1", substr 1, pop 100, rerank 0.9)` and a two-word mention the rejection
condition fails and the truncated row list is emitted. -/
theorem C5_witness :
    descRankOne 10 2 (processScores [("Q1", ((1 : ℚ), (100 : ℕ)))] [("Q1", (9 : ℚ)/10)])
      = emitRes 10 (processScores [("Q1", ((1 : ℚ), (100 : ℕ)))] [("Q1", (9 : ℚ)/10)]) := by
  have hP : processScores [("Q1", ((1 : ℚ), (100 : ℕ)))] [("Q1", (9 : ℚ)/10)]
      = [("Q1", (1 : ℚ), (100 : ℕ), (9 : ℚ)/10)] := by
    norm_num [processScores, entitiesWithScores, filterScored, sortScored, sortDesc, insDesc,
      round2, round_eq, alistGetD, alistGet?, List.filter, pyStartsWith]
  refine (C5_acceptance_rule 10 2 [("Q1", ((1 : ℚ), (100 : ℕ)))] [("Q1", (9 : ℚ)/10)]).2 ?_
  rw [hP]
  intro h
  rcases h with ⟨h1, _⟩ | h
  · exact absurd h1 (by decide)
  · rcases h with ⟨_, h2⟩ | h2 | ⟨_, h2⟩ | ⟨h2, _⟩ | h2 <;> norm_num at h2

/-! ## Claim C7: chunker hard word-window fallback -/

/-- Claim C7 (against the intended fallback; the shipped line 160 raises
`AttributeError` on the nonexistent attribute `max_chunk`, see
`hardWindowChunks`): for every comma-free token list longer than the window
size `C > 0`, the hard word-count window split emits at least two chunks, each
holding at most `C` words, and each chunk carries a single dummy sentence span
covering itself. -/
theorem C7_hard_window_fallback (C : ℕ) (tokens : List String) (n : ℕ)
    (hC : 0 < C) (hlen : C < tokens.length) :
    2 ≤ (hardWindowChunks C tokens n).length
    ∧ ∀ p ∈ hardWindowChunks C tokens n,
        p.1.length ≤ C ∧ p.2.1 = [(0, p.1.length)] ∧ p.2.2 = n := by
  constructor
  · have hlen2 : (hardWindowChunks C tokens n).length =
        tokens.length / C + (if tokens.length % C > 0 then 1 else 0) := by
      simp [hardWindowChunks]
    rw [hlen2]
    have hdm := Nat.div_add_mod tokens.length C
    have hmlt : tokens.length % C < C := Nat.mod_lt _ hC
    by_cases hz : tokens.length % C = 0
    · rw [if_neg (by omega)]
      have hmul : C * 1 < C * (tokens.length / C) := by
        rw [mul_one]
        omega
      have hq := Nat.lt_of_mul_lt_mul_left hmul
      omega
    · rw [if_pos (Nat.pos_of_ne_zero hz)]
      have hq1 : 1 ≤ tokens.length / C := (Nat.one_le_div_iff hC).mpr (le_of_lt hlen)
      omega
  · intro p hp
    rw [hardWindowChunks, List.mem_map] at hp
    obtain ⟨ii, _, hpe⟩ := hp
    subst hpe
    refine ⟨?_, rfl, rfl⟩
    have h1 : ((tokens.take ((ii + 1) * C)).drop (ii * C)).length =
        min ((ii + 1) * C) tokens.length - ii * C := by
      rw [List.length_drop, List.length_take]
    rw [h1]
    have h2 : (ii + 1) * C = ii * C + C := by ring
    have h3 : min ((ii + 1) * C) tokens.length ≤ (ii + 1) * C := min_le_left _ _
    omega

/-- Witness for C7 at the spec's scenario: 500 comma-free tokens with window
size 180 yield at least two chunks, none exceeding the window. -/
theorem C7_witness :
    2 ≤ (hardWindowChunks 180 (List.replicate 500 "w") 0).length
    ∧ ∀ p ∈ hardWindowChunks 180 (List.replicate 500 "w") 0,
        p.1.length ≤ 180 ∧ p.2.1 = [(0, p.1.length)] ∧ p.2.2 = 0 :=
  C7_hard_window_fallback 180 (List.replicate 500 "w") 0 (by decide)
    (by rw [List.length_replicate]; omega)

/-! ## Claim C10: `find_labels` -/

/-- Claim C10, on the code as shipped: in list mode (each result a list of
ids) `find_labels` returns, per ranking result, the label from the label table
with the id itself as fallback; but in single-answer mode (a bare id string)
the `else` branch raises `NameError` (`entity_id` is not in scope at line
767), modelled as `none` — the claim's "both output shapes" fails on the
single-id shape. -/
theorem C10_find_labels_code_bug :
    (∀ (q : List (String × String)) (batch : List (List (List String))),
      findLabels q (batch.map (fun doc => doc.map EntRes.many))
        = some (batch.map (fun doc => doc.map (fun ids =>
            LabelRes.many (ids.map (fun i => alistGetD q i i))))))
    ∧ (∀ (q : List (String × String)) (i : String) (rest : List EntRes)
        (batch : List (List EntRes)),
      findLabels q ((EntRes.one i :: rest) :: batch) = none) := by
  constructor
  · intro q batch
    induction batch with
    | nil => rfl
    | cons doc rest ih =>
      have hdoc : ∀ d : List (List String), findLabelsList q (d.map EntRes.many)
          = some (d.map (fun ids => LabelRes.many (ids.map (fun i => alistGetD q i i)))) := by
        intro d
        induction d with
        | nil => rfl
        | cons ids ds ihd =>
          simp only [List.map_cons, findLabelsList, ihd]
      simp only [List.map_cons, findLabels, hdoc doc, ih]
  · intro q i rest batch
    rfl

/-! ## Candidate accumulation: type-filter invariant (claim C8) -/

theorem alistGet?_mem {κ ν : Type} [DecidableEq κ] (l : List (κ × ν)) (k : κ) (v : ν)
    (h : alistGet? l k = some v) : (k, v) ∈ l := by
  induction l with
  | nil => exact Option.noConfusion h
  | cons p t ih =>
    obtain ⟨a, w⟩ := p
    by_cases hak : a = k
    · subst hak
      rw [alistGet?, if_pos rfl, Option.some_inj] at h
      rw [← h]
      exact List.mem_cons_self _ _
    · rw [alistGet?, if_neg hak] at h
      exact List.mem_cons_of_mem _ (ih h)

theorem mem_setIfGreater {κ : Type} [DecidableEq κ] (l : List (κ × ℚ)) (k : κ) (s : ℚ)
    (p : κ × ℚ) (h : p ∈ setIfGreater l k s) : p ∈ l ∨ p.1 = k := by
  induction l with
  | nil =>
    rw [setIfGreater] at h
    rcases List.mem_singleton.mp h with rfl
    exact Or.inr rfl
  | cons q t ih =>
    obtain ⟨a, v⟩ := q
    rw [setIfGreater] at h
    by_cases hak : a = k
    · rw [if_pos hak] at h
      rcases List.mem_cons.mp h with rfl | hmem
      · exact Or.inr hak
      · exact Or.inl (List.mem_cons_of_mem _ hmem)
    · rw [if_neg hak] at h
      rcases List.mem_cons.mp h with rfl | hmem
      · exact Or.inl (List.mem_cons_self _ _)
      · rcases ih hmem with hl | hr
        · exact Or.inl (List.mem_cons_of_mem _ hl)
        · exact Or.inr hr

theorem mem_mergeEntities (cand : List ((String × ℕ) × ℚ)) (es : List (String × ℕ)) (score : ℚ)
    (p : (String × ℕ) × ℚ) (h : p ∈ mergeEntities cand es score) : p ∈ cand ∨ p.1 ∈ es := by
  induction es generalizing cand with
  | nil => exact Or.inl h
  | cons e rest ih =>
    rw [mergeEntities, List.foldl_cons] at h
    rcases ih (setIfGreater cand e score) h with hl | hr
    · rcases mem_setIfGreater cand e score p hl with h1 | h1
      · exact Or.inl h1
      · exact Or.inr (h1 ▸ List.mem_cons_self _ _)
    · exact Or.inr (List.mem_cons_of_mem _ hr)

/-- Membership in the union of a mention tag's type set and the "AMB" set. -/
def typeOK (tsets : List (String × List String)) (tag : String) (e : String) : Prop :=
  e ∈ alistGetD tsets tag [] ∨ e ∈ alistGetD tsets "AMB" []

theorem typeFilter_ok (tsets : List (String × List String)) (tag : String)
    (es : List (String × ℕ)) (e : String × ℕ) (h : e ∈ typeFilter tsets tag es) :
    typeOK tsets tag e.1 := by
  rw [typeFilter, List.mem_filter] at h
  have hb := h.2
  rw [Bool.or_eq_true] at hb
  rcases hb with hb | hb
  · exact Or.inl (by simpa using hb)
  · exact Or.inr (by simpa using hb)

theorem accumPairs_ok (idlist : List (String × List (String × ℕ)))
    (tsets : List (String × List String)) (tag : String) (pairs : List (String × ℚ))
    (cand : List ((String × ℕ) × ℚ)) (hcand : ∀ p ∈ cand, typeOK tsets tag p.1.1)
    (p : (String × ℕ) × ℚ) (h : p ∈ accumPairs idlist tsets tag pairs cand) :
    typeOK tsets tag p.1.1 := by
  induction pairs generalizing cand with
  | nil => exact hcand p h
  | cons q rest ih =>
    rw [accumPairs, List.foldl_cons] at h
    refine ih (mergeEntities cand (typeFilter tsets tag (alistGetD idlist q.1 [])) q.2) ?_ h
    intro r hr
    rcases mem_mergeEntities _ _ _ r hr with h1 | h1
    · exact hcand r h1
    · exact typeFilter_ok tsets tag _ r.1 h1

theorem mem_appendEntry {κ α : Type} [DecidableEq κ] (d : List (κ × List α)) (k : κ)
    (xs : List α) (q : κ × List α) (h : q ∈ appendEntry d k xs) :
    q ∈ d ∨ (q.1 = k ∧ ∀ a ∈ q.2, a ∈ xs ∨ ∃ v, (k, v) ∈ d ∧ a ∈ v) := by
  induction d with
  | nil =>
    rw [appendEntry] at h
    rcases List.mem_singleton.mp h with rfl
    exact Or.inr ⟨rfl, fun a ha => Or.inl ha⟩
  | cons p t ih =>
    obtain ⟨a, v⟩ := p
    rw [appendEntry] at h
    by_cases hak : a = k
    · rw [if_pos hak] at h
      rcases List.mem_cons.mp h with rfl | hmem
      · refine Or.inr ⟨hak, fun b hb => ?_⟩
        rcases List.mem_append.mp hb with hb | hb
        · exact Or.inr ⟨v, by rw [← hak]; exact ⟨List.mem_cons_self _ _, hb⟩⟩
        · exact Or.inl hb
      · exact Or.inl (List.mem_cons_of_mem _ hmem)
    · rw [if_neg hak] at h
      rcases List.mem_cons.mp h with rfl | hmem
      · exact Or.inl (List.mem_cons_self _ _)
      · rcases ih hmem with h1 | ⟨h1, h2⟩
        · exact Or.inl (List.mem_cons_of_mem _ h1)
        · refine Or.inr ⟨h1, fun b hb => ?_⟩
          rcases h2 b hb with hb1 | ⟨w, hw1, hw2⟩
          · exact Or.inl hb1
          · exact Or.inr ⟨w, List.mem_cons_of_mem _ hw1, hw2⟩

/-- The dict invariant: every triple filed under mention index `i` has an
entity id in the type set of `tags[i]` or in the "AMB" set. -/
def dictOK (tsets : List (String × List String)) (tags : List String)
    (dict : List (ℕ × List (String × ℕ × ℚ))) : Prop :=
  ∀ q ∈ dict, ∀ t ∈ q.2, typeOK tsets (tags.getD q.1 "") t.1

theorem dictOK_appendEntry (tsets : List (String × List String)) (tags : List String)
    (dict : List (ℕ × List (String × ℕ × ℚ))) (k : ℕ) (xs : List (String × ℕ × ℚ))
    (hd : dictOK tsets tags dict) (hxs : ∀ t ∈ xs, typeOK tsets (tags.getD k "") t.1) :
    dictOK tsets tags (appendEntry dict k xs) := by
  intro q hq t ht
  rcases mem_appendEntry dict k xs q hq with h1 | ⟨h1, h2⟩
  · exact hd q h1 t ht
  · rcases h2 t ht with h3 | ⟨v, hv1, hv2⟩
    · rw [h1]
      exact hxs t h3
    · rw [h1]
      exact hd (k, v) hv1 t hv2

/-- The accumulation-state invariant for the C8 fold. -/
def stOK (tsets : List (String × List String)) (tags : List String) (st : AccumSt) : Prop :=
  dictOK tsets tags st.dict ∧
    ∀ p ∈ st.cand, typeOK tsets (tags.getD st.prevIndex "") p.1.1

theorem accumStep_ok (idlist : List (String × List (String × ℕ)))
    (tsets : List (String × List String)) (wordKeys : List String) (cells : ℕ)
    (fndWords : List String) (rows : List FaissRow) (tags : List String)
    (st : AccumSt) (it : WordItem) (hst : stOK tsets tags st)
    (htag : it.tag = tags.getD it.index "")
    (hconn : it.count = st.prevCount → st.cand ≠ [] → it.index = st.prevIndex) :
    stOK tsets tags (accumStep idlist tsets wordKeys cells fndWords rows st it) := by
  obtain ⟨hdict, hcand⟩ := hst
  by_cases hc : it.count ≠ st.prevCount
  · have hstep : accumStep idlist tsets wordKeys cells fndWords rows st it =
        { wordsI := st.wordsI + (if it.flag then 1 else 0)
          indI := st.indI + (if it.flag then 0 else 1)
          prevCount := it.count
          prevIndex := it.index
          cand := accumPairs idlist tsets it.tag
            (wordPairs fndWords rows wordKeys cells st it) []
          dict := appendEntry st.dict st.prevIndex
            (st.cand.map (fun pc => (pc.1.1, pc.1.2, pc.2))) } := by
      simp only [accumStep, if_pos hc]
    rw [hstep]
    constructor
    · refine dictOK_appendEntry tsets tags st.dict st.prevIndex _ hdict ?_
      intro t ht
      rw [List.mem_map] at ht
      obtain ⟨pc, hpc, hpe⟩ := ht
      rw [← hpe]
      exact hcand pc hpc
    · intro p hp
      have h := accumPairs_ok idlist tsets it.tag _ [] (by intro r hr; exact absurd hr (List.not_mem_nil r)) p hp
      rw [htag] at h
      exact h
  · rw [not_not] at hc
    have hstep : accumStep idlist tsets wordKeys cells fndWords rows st it =
        { wordsI := st.wordsI + (if it.flag then 1 else 0)
          indI := st.indI + (if it.flag then 0 else 1)
          prevCount := it.count
          prevIndex := it.index
          cand := accumPairs idlist tsets it.tag
            (wordPairs fndWords rows wordKeys cells st it) st.cand
          dict := st.dict } := by
      simp only [accumStep, hc]
      simp
    rw [hstep]
    refine ⟨hdict, ?_⟩
    intro p hp
    have hcand' : ∀ r ∈ st.cand, typeOK tsets it.tag r.1.1 := by
      intro r hr
      by_cases hnil : st.cand = []
      · rw [hnil] at hr
        exact absurd hr (List.not_mem_nil r)
      · have hidx := hconn hc hnil
        rw [htag, hidx]
        exact hcand r hr
    have h := accumPairs_ok idlist tsets it.tag _ st.cand hcand' p hp
    rw [htag] at h
    exact h

theorem accumFold_ok (idlist : List (String × List (String × ℕ)))
    (tsets : List (String × List String)) (wordKeys : List String) (cells : ℕ)
    (fndWords : List String) (rows : List FaissRow) (tags : List String)
    (items : List WordItem) (st : AccumSt) (hst : stOK tsets tags st)
    (htags : ∀ it ∈ items, it.tag = tags.getD it.index "")
    (hchain : List.Chain' (fun a b => a.count = b.count → a.index = b.index) items)
    (hconn : ∀ r, items.head? = some r → r.count = st.prevCount → st.cand ≠ [] →
      r.index = st.prevIndex) :
    stOK tsets tags (items.foldl
      (accumStep idlist tsets wordKeys cells fndWords rows) st) := by
  induction items generalizing st with
  | nil => exact hst
  | cons it rest ih =>
    rw [List.foldl_cons]
    have hst' := accumStep_ok idlist tsets wordKeys cells fndWords rows tags st it hst
      (htags it (List.mem_cons_self _ _))
      (fun hc hnil => hconn it rfl hc hnil)
    refine ih _ hst' (fun r hr => htags r (List.mem_cons_of_mem _ hr))
      (List.Chain'.tail hchain) ?_
    intro r hr hc _
    have hprev : (accumStep idlist tsets wordKeys cells fndWords rows st it).prevIndex
        = it.index := rfl
    have hpc : (accumStep idlist tsets wordKeys cells fndWords rows st it).prevCount
        = it.count := rfl
    rw [hprev]
    rw [hpc] at hc
    cases rest with
    | nil => exact Option.noConfusion hr
    | cons r' rest' =>
      rw [List.head?_cons, Option.some_inj] at hr
      subst hr
      have hrel := List.chain'_cons.mp hchain
      exact (hrel.1 hc.symm).symm

theorem mem_expandWord (idlist : List (String × List (String × ℕ))) (morph : String → String)
    (i : ℕ) (tag : String) (wc : ℕ) (w : String) (it : WordItem)
    (h : it ∈ expandWord idlist morph i tag wc w) :
    it.index = i ∧ it.count = wc ∧ it.tag = tag := by
  rw [expandWord] at h
  rcases List.mem_cons.mp h with rfl | h
  · exact ⟨rfl, rfl, rfl⟩
  · by_cases hm : morph w ≠ w
    · rw [if_pos hm] at h
      rcases List.mem_singleton.mp h with rfl
      exact ⟨rfl, rfl, rfl⟩
    · rw [if_neg hm] at h
      exact absurd h (List.not_mem_nil it)

theorem mem_mentionItems (idlist : List (String × List (String × ℕ))) (morph : String → String)
    (i : ℕ) (tag : String) (wc : ℕ) (ws : List String) (it : WordItem)
    (h : it ∈ mentionItems idlist morph i tag wc ws) :
    it.index = i ∧ it.tag = tag ∧ wc ≤ it.count ∧ it.count < wc + ws.length := by
  induction ws generalizing wc with
  | nil => exact absurd h (List.not_mem_nil it)
  | cons w ws' ih =>
    rw [mentionItems] at h
    rcases List.mem_append.mp h with h1 | h1
    · obtain ⟨hi, hc, ht⟩ := mem_expandWord idlist morph i tag wc w it h1
      exact ⟨hi, ht, le_of_eq hc.symm, by rw [hc, List.length_cons]; omega⟩
    · obtain ⟨hi, ht, hc1, hc2⟩ := ih (wc + 1) h1
      exact ⟨hi, ht, by omega, by rw [List.length_cons]; omega⟩

theorem mem_classifyMentions (idlist : List (String × List (String × ℕ)))
    (morph : String → String) (i0 wc : ℕ) (pairs : List (List String × String))
    (it : WordItem) (h : it ∈ classifyMentions idlist morph i0 wc pairs) :
    wc ≤ it.count ∧
      ∃ j, j < pairs.length ∧ it.index = i0 + j ∧ it.tag = (pairs.getD j ([], "")).2 := by
  induction pairs generalizing i0 wc with
  | nil => exact absurd h (List.not_mem_nil it)
  | cons p rest ih =>
    obtain ⟨ws, tag⟩ := p
    rw [classifyMentions] at h
    rcases List.mem_append.mp h with h1 | h1
    · obtain ⟨hi, ht, hc1, _⟩ := mem_mentionItems idlist morph i0 tag wc ws it h1
      exact ⟨hc1, 0, by rw [List.length_cons]; omega, by omega, ht⟩
    · obtain ⟨hc, j, hj, hi, ht⟩ := ih (i0 + 1) (wc + ws.length) h1
      refine ⟨by omega, j + 1, by rw [List.length_cons]; omega, by omega, ?_⟩
      rw [List.getD_cons_succ]
      exact ht

theorem classifyDoc_tag (idlist : List (String × List (String × ℕ))) (morph : String → String)
    (wordLists : List (List String)) (tags : List String) (wc0 : ℕ) (it : WordItem)
    (h : it ∈ classifyDoc idlist morph wordLists tags wc0) :
    it.tag = tags.getD it.index "" := by
  obtain ⟨_, j, hj, hi, ht⟩ := mem_classifyMentions idlist morph 0 wc0 _ it h
  have hj' : j < tags.length := lt_of_lt_of_le hj (by
    rw [List.length_zip]; exact min_le_right _ _)
  have hjw : j < wordLists.length := lt_of_lt_of_le hj (by
    rw [List.length_zip]; exact min_le_left _ _)
  have hz : (wordLists.zip tags).getD j ([], "") = (wordLists.zip tags).get ⟨j, hj⟩ :=
    List.getD_eq_getElem _ _ hj
  have hzel : (wordLists.zip tags).get ⟨j, hj⟩ =
      (wordLists.get ⟨j, hjw⟩, tags.get ⟨j, hj'⟩) := List.getElem_zip
  have htg : tags.getD j "" = tags.get ⟨j, hj'⟩ := List.getD_eq_getElem _ _ hj'
  rw [hi, Nat.zero_add, htg, ht, hz, hzel]

theorem pairwise_of_forall_pairs {α : Type} (R : α → α → Prop) (l : List α)
    (h : ∀ a ∈ l, ∀ b ∈ l, R a b) : List.Pairwise R l := by
  induction l with
  | nil => exact List.Pairwise.nil
  | cons a t ih =>
    refine List.Pairwise.cons (fun b hb => h a (List.mem_cons_self _ _) b
      (List.mem_cons_of_mem _ hb)) (ih ?_)
    intro x hx y hy
    exact h x (List.mem_cons_of_mem _ hx) y (List.mem_cons_of_mem _ hy)

theorem classifyMentions_pairwise (idlist : List (String × List (String × ℕ)))
    (morph : String → String) (i0 wc : ℕ) (pairs : List (List String × String)) :
    List.Pairwise (fun (a b : WordItem) => a.count = b.count → a.index = b.index)
      (classifyMentions idlist morph i0 wc pairs) := by
  induction pairs generalizing i0 wc with
  | nil => exact List.Pairwise.nil
  | cons p rest ih =>
    obtain ⟨ws, tag⟩ := p
    rw [classifyMentions]
    rw [List.pairwise_append]
    refine ⟨?_, ih (i0 + 1) (wc + ws.length), ?_⟩
    · refine pairwise_of_forall_pairs _ _ ?_
      intro a ha b hb _
      have ha' := (mem_mentionItems idlist morph i0 tag wc ws a ha).1
      have hb' := (mem_mentionItems idlist morph i0 tag wc ws b hb).1
      rw [ha', hb']
    · intro a ha b hb hcnt
      have ha' := (mem_mentionItems idlist morph i0 tag wc ws a ha).2.2.2
      have hb' := (mem_classifyMentions idlist morph (i0 + 1) (wc + ws.length) rest b hb).1
      omega

theorem accumDict_ok (idlist : List (String × List (String × ℕ)))
    (tsets : List (String × List String)) (wordKeys : List String) (cells : ℕ)
    (fndWords : List String) (rows : List FaissRow) (tags : List String)
    (items : List WordItem)
    (htags : ∀ it ∈ items, it.tag = tags.getD it.index "")
    (hchain : List.Chain' (fun a b => a.count = b.count → a.index = b.index) items) :
    dictOK tsets tags (accumDict idlist tsets wordKeys cells fndWords rows items) := by
  have hfold : stOK tsets tags (items.foldl
      (accumStep idlist tsets wordKeys cells fndWords rows) accumInit) := by
    refine accumFold_ok idlist tsets wordKeys cells fndWords rows tags items accumInit
      ⟨fun q hq => absurd hq (List.not_mem_nil q), fun p hp => absurd hp (List.not_mem_nil p)⟩
      htags hchain ?_
    intro r _ _ hnil
    exact absurd rfl hnil
  cases items with
  | nil => exact hfold.1
  | cons a l =>
    show dictOK tsets tags (appendEntry
      ((a :: l).foldl (accumStep idlist tsets wordKeys cells fndWords rows) accumInit).dict
      ((a :: l).foldl (accumStep idlist tsets wordKeys cells fndWords rows) accumInit).prevIndex
      (((a :: l).foldl (accumStep idlist tsets wordKeys cells fndWords rows)
        accumInit).cand.map (fun pc => (pc.1.1, pc.1.2, pc.2))))
    refine dictOK_appendEntry tsets tags _ _ _ hfold.1 ?_
    intro u hu
    rw [List.mem_map] at hu
    obtain ⟨pc, hpc, hpe⟩ := hu
    rw [← hpe]
    exact hfold.2 pc hpc

/-- C8: every candidate entity filed in `candidate_entities_dict` for a
mention of index `i` passed the type filter: its id lies in the type set of
the mention's tag `tags[i]` or in the index's "AMB" set (entity_linking_sep.py
lines 553-566, `getattr` of the tag's type set union the ambiguous set).
Stated for the full accumulation loop over the items produced by the
classification loop, for any inverted index, type sets, faiss output and
normalizer. -/
theorem C8_type_filter (idlist : List (String × List (String × ℕ)))
    (tsets : List (String × List String)) (wordKeys : List String) (cells : ℕ)
    (fndWords : List String) (rows : List FaissRow) (morph : String → String)
    (wordLists : List (List String)) (tags : List String) (wc0 : ℕ)
    (i : ℕ) (t : String × ℕ × ℚ)
    (h : t ∈ alistGetD (accumDict idlist tsets wordKeys cells fndWords rows
      (classifyDoc idlist morph wordLists tags wc0)) i []) :
    t.1 ∈ alistGetD tsets (tags.getD i "") [] ∨ t.1 ∈ alistGetD tsets "AMB" [] := by
  have hdictOK : dictOK tsets tags (accumDict idlist tsets wordKeys cells fndWords rows
      (classifyDoc idlist morph wordLists tags wc0)) :=
    accumDict_ok idlist tsets wordKeys cells fndWords rows tags _
      (fun it hit => classifyDoc_tag idlist morph wordLists tags wc0 it hit)
      (List.Pairwise.chain' (classifyMentions_pairwise idlist morph 0 wc0 _))
  rw [alistGetD] at h
  cases hg : alistGet? (accumDict idlist tsets wordKeys cells fndWords rows
      (classifyDoc idlist morph wordLists tags wc0)) i with
  | none =>
    rw [hg, Option.getD_none] at h
    exact absurd h (List.not_mem_nil t)
  | some v =>
    rw [hg, Option.getD_some] at h
    exact hdictOK (i, v) (alistGet?_mem _ i v hg) t h

/-- Witness for C8 on a concrete run: one mention "париж" tagged LOC, present
in the inverted index with candidate Q90, which lies in the LOC type set. -/
theorem C8_type_filter_witness :
    (("Q90", 1, (1 : ℚ)) ∈ alistGetD (accumDict [("париж", [("Q90", 1)])]
      [("LOC", ["Q90"]), ("AMB", [])] [] 1 ["париж"] []
      (classifyDoc [("париж", [("Q90", 1)])] id [["париж"]] ["LOC"] 0)) 0 []) ∧
    (("Q90", 1, (1 : ℚ)).1 ∈ alistGetD [("LOC", ["Q90"]), ("AMB", [])]
      (["LOC"].getD 0 "") [] ∨
     ("Q90", 1, (1 : ℚ)).1 ∈ alistGetD [("LOC", ["Q90"]), ("AMB", [])] "AMB" []) := by
  refine ⟨?_, ?_⟩
  · show ("Q90", 1, (1 : ℚ)) ∈ alistGetD (accumDict [("париж", [("Q90", 1)])]
      [("LOC", ["Q90"]), ("AMB", [])] [] 1 ["париж"] []
      (classifyDoc [("париж", [("Q90", 1)])] id [["париж"]] ["LOC"] 0)) 0 []
    decide
  · exact C8_type_filter [("париж", [("Q90", 1)])] [("LOC", ["Q90"]), ("AMB", [])]
      [] 1 ["париж"] [] id [["париж"]] ["LOC"] 0 0 ("Q90", 1, (1 : ℚ)) (by decide)

/-! ## Exact match before ANN lookup (claim C9) -/

theorem mem_expandWord_flag (idlist : List (String × List (String × ℕ)))
    (morph : String → String) (i : ℕ) (tag : String) (wc : ℕ) (w : String) (it : WordItem)
    (h : it ∈ expandWord idlist morph i tag wc w) :
    it.flag = (alistGet? idlist it.word).isSome := by
  rw [expandWord] at h
  rcases List.mem_cons.mp h with rfl | h
  · rfl
  · by_cases hm : morph w ≠ w
    · rw [if_pos hm] at h
      rcases List.mem_singleton.mp h with rfl
      rfl
    · rw [if_neg hm] at h
      exact absurd h (List.not_mem_nil it)

theorem mem_mentionItems_flag (idlist : List (String × List (String × ℕ)))
    (morph : String → String) (i : ℕ) (tag : String) (wc : ℕ) (ws : List String)
    (it : WordItem) (h : it ∈ mentionItems idlist morph i tag wc ws) :
    it.flag = (alistGet? idlist it.word).isSome := by
  induction ws generalizing wc with
  | nil => exact absurd h (List.not_mem_nil it)
  | cons w ws' ih =>
    rw [mentionItems] at h
    rcases List.mem_append.mp h with h1 | h1
    · exact mem_expandWord_flag idlist morph i tag wc w it h1
    · exact ih (wc + 1) h1

theorem mem_classifyMentions_flag (idlist : List (String × List (String × ℕ)))
    (morph : String → String) (i0 wc : ℕ) (pairs : List (List String × String))
    (it : WordItem) (h : it ∈ classifyMentions idlist morph i0 wc pairs) :
    it.flag = (alistGet? idlist it.word).isSome := by
  induction pairs generalizing i0 wc with
  | nil => exact absurd h (List.not_mem_nil it)
  | cons p rest ih =>
    obtain ⟨ws, tag⟩ := p
    rw [classifyMentions] at h
    rcases List.mem_append.mp h with h1 | h1
    · exact mem_mentionItems_flag idlist morph i0 tag wc ws it h1
    · exact ih (i0 + 1) (wc + ws.length) h1

theorem accumStep_wordsI (idlist : List (String × List (String × ℕ)))
    (tsets : List (String × List String)) (wordKeys : List String) (cells : ℕ)
    (fndWords : List String) (rows : List FaissRow) (st : AccumSt) (it : WordItem) :
    (accumStep idlist tsets wordKeys cells fndWords rows st it).wordsI =
      st.wordsI + (if it.flag then 1 else 0) := rfl

theorem foldl_wordsI (idlist : List (String × List (String × ℕ)))
    (tsets : List (String × List String)) (wordKeys : List String) (cells : ℕ)
    (fndWords : List String) (rows : List FaissRow) (l : List WordItem) (st : AccumSt) :
    (l.foldl (accumStep idlist tsets wordKeys cells fndWords rows) st).wordsI =
      st.wordsI + (l.filter (fun it => it.flag)).length := by
  induction l generalizing st with
  | nil => simp
  | cons a t ih =>
    rw [List.foldl_cons, ih, accumStep_wordsI]
    by_cases hf : a.flag
    · simp [hf]
      omega
    · simp [hf]

theorem fndWordsOf_append (a b : List WordItem) :
    fndWordsOf (a ++ b) = fndWordsOf a ++ fndWordsOf b := by
  simp [fndWordsOf]

theorem fndWordsOf_cons_flag (it : WordItem) (l : List WordItem) (h : it.flag = true) :
    fndWordsOf (it :: l) = it.word :: fndWordsOf l := by
  simp [fndWordsOf, List.filter_cons, h]

theorem fndWordsOf_length (l : List WordItem) :
    (fndWordsOf l).length = (l.filter (fun it => it.flag)).length := by
  simp [fndWordsOf]

/-- C9: per word, the candidate lookup is exact-match first: the flag recorded
by the classification loop is exactly presence of the word in the inverted
index (lines 452-472); a present word contributes the single pair
`(fnd_words[words_i], 1.0)` without consulting the faiss output at all; an
absent word takes the faiss row at the running counter, each distance `d`
becoming `1 - d` exactly when `num_faiss_cells > 1` and staying raw otherwise
(lines 535-544); and in a run over any item sequence the pair contributed for
a present word is that very word with similarity `1.0`. -/
theorem C9_exact_match_first (idlist : List (String × List (String × ℕ)))
    (tsets : List (String × List String)) (wordKeys : List String) (cells : ℕ)
    (rows : List FaissRow) (morph : String → String)
    (wordLists : List (List String)) (tags : List String) (wc0 : ℕ) :
    (∀ it ∈ classifyDoc idlist morph wordLists tags wc0,
        it.flag = (alistGet? idlist it.word).isSome)
    ∧ (∀ (fndWords : List String) (st : AccumSt) (it : WordItem), it.flag = true →
        wordPairs fndWords rows wordKeys cells st it = [(fndWords.getD st.wordsI "", 1)])
    ∧ (∀ (fndWords : List String) (st : AccumSt) (it : WordItem), it.flag = false →
        wordPairs fndWords rows wordKeys cells st it =
          ((rows.getD st.indI ([], [])).2.zip
            ((rows.getD st.indI ([], [])).1.map
              (fun d => if 1 < cells then 1 - d else d))).map
            (fun p => (wordKeys.getD p.1 "", p.2)))
    ∧ (∀ (pre : List WordItem) (it : WordItem) (suf : List WordItem), it.flag = true →
        wordPairs (fndWordsOf (pre ++ it :: suf)) rows wordKeys cells
          (pre.foldl (accumStep idlist tsets wordKeys cells
            (fndWordsOf (pre ++ it :: suf)) rows) accumInit) it = [(it.word, 1)]) := by
  refine ⟨?_, ?_, ?_, ?_⟩
  · intro it hit
    exact mem_classifyMentions_flag idlist morph 0 wc0 _ it hit
  · intro fndWords st it hf
    simp [wordPairs, hf]
  · intro fndWords st it hf
    by_cases hc : 1 < cells
    · simp [wordPairs, hf, hc]
    · simp [wordPairs, hf, hc]
  · intro pre it suf hf
    have hwi : (pre.foldl (accumStep idlist tsets wordKeys cells
        (fndWordsOf (pre ++ it :: suf)) rows) accumInit).wordsI =
        (pre.filter (fun x => x.flag)).length := by
      rw [foldl_wordsI]
      simp [accumInit]
    have hsplit : fndWordsOf (pre ++ it :: suf) =
        fndWordsOf pre ++ it.word :: fndWordsOf suf := by
      rw [fndWordsOf_append, fndWordsOf_cons_flag it suf hf]
    have hlen : (fndWordsOf pre).length = (pre.filter (fun x => x.flag)).length :=
      fndWordsOf_length pre
    have hget : (fndWordsOf (pre ++ it :: suf)).getD
        (pre.filter (fun x => x.flag)).length "" = it.word := by
      rw [hsplit, ← hlen, List.getD_append_right _ _ _ _ (le_refl _), Nat.sub_self]
      rfl
    rw [wordPairs, if_pos hf, hwi, hget]

/-- Witness for C9: concrete run where the present word "париж" is the second
item; its contributed pair is exactly `("париж", 1.0)`. -/
theorem C9_witness :
    wordPairs (fndWordsOf ([⟨0, 0, "LOC", "у", false⟩] ++
        (⟨0, 1, "LOC", "париж", true⟩ : WordItem) :: [])) [([], [])] ["w"] 1
      (([⟨0, 0, "LOC", "у", false⟩] : List WordItem).foldl
        (accumStep [("париж", [("Q90", 1)])] [("LOC", ["Q90"])] ["w"] 1
          (fndWordsOf ([⟨0, 0, "LOC", "у", false⟩] ++
            (⟨0, 1, "LOC", "париж", true⟩ : WordItem) :: [])) [([], [])]) accumInit)
      ⟨0, 1, "LOC", "париж", true⟩ = [("париж", 1)] :=
  (C9_exact_match_first [("париж", [("Q90", 1)])] [("LOC", ["Q90"])] ["w"] 1
    [([], [])] id [] [] 0).2.2.2 [⟨0, 0, "LOC", "у", false⟩]
    ⟨0, 1, "LOC", "париж", true⟩ [] rfl

/-! ## Deny-listed mentions (claim C2) -/

theorem callSep_eq (cfg : Cfg) (morph : String → String)
    (faiss : ℕ → List String → List FaissRow)
    (ranker : List String → List (List String) → List (List (String × ℚ)))
    (msB : List (List String)) (osB : List (List (ℕ × ℕ))) (tsB : List (List String))
    (soB : List (List (ℕ × ℕ))) (sentsB : List (List String)) :
    callSep cfg morph faiss ranker msB osB tsB soB sentsB =
      match findLabels cfg.qToLabel (callIds cfg morph faiss ranker msB tsB osB sentsB soB) with
      | some labels => some ⟨callSubstrs cfg msB tsB osB,
          callConfs cfg morph faiss ranker msB tsB osB sentsB soB,
          callOffsets cfg msB tsB osB,
          callIds cfg morph faiss ranker msB tsB osB sentsB soB,
          callTags cfg msB tsB osB, labels⟩
      | none => none := rfl

theorem findLabelsList_one_none (qToLabel : List (String × String)) (s : String)
    (l : List EntRes) (h : EntRes.one s ∈ l) : findLabelsList qToLabel l = none := by
  induction l with
  | nil => exact absurd h (List.not_mem_nil _)
  | cons e rest ih =>
    cases e with
    | one t => rfl
    | many ids =>
      rcases List.mem_cons.mp h with he | he
      · exact absurd he.symm (by simp)
      · rw [findLabelsList, ih he]

theorem findLabels_mem_none (qToLabel : List (String × String)) (batch : List (List EntRes))
    (l : List EntRes) (hl : l ∈ batch) (hn : findLabelsList qToLabel l = none) :
    findLabels qToLabel batch = none := by
  induction batch with
  | nil => exact absurd hl (List.not_mem_nil _)
  | cons b rest ih =>
    rcases List.mem_cons.mp hl with he | he
    · subst he
      rw [findLabels, hn]
    · rw [findLabels]
      cases hb : findLabelsList qToLabel b with
      | none => rfl
      | some labs => rw [ih he]

theorem splitNFDoc_spec (numRet : ℕ) :
    ∀ (ms ts : List String) (os : List (ℕ × ℕ)), ts.length = ms.length →
      os.length = ms.length →
      (splitNFDoc numRet ms ts os).nfSubstr = ms.filter (fun m => isDenied m) ∧
      (splitNFDoc numRet ms ts os).fndSubstr = ms.filter (fun m => !isDenied m) ∧
      (splitNFDoc numRet ms ts os).nfIds =
        List.replicate (ms.filter (fun m => isDenied m)).length (nfEntry numRet) ∧
      (splitNFDoc numRet ms ts os).nfConf =
        List.replicate (ms.filter (fun m => isDenied m)).length (nfConfEntry numRet)
  | [], ts, os, _, _ => by
    cases ts <;> cases os <;> simp [splitNFDoc, emptySplit]
  | m :: ms, [], os, hts, hos => by
    rw [List.length_nil, List.length_cons] at hts
    exact absurd hts.symm (Nat.succ_ne_zero _)
  | m :: ms, t :: ts, [], hts, hos => by
    rw [List.length_nil, List.length_cons] at hos
    exact absurd hos.symm (Nat.succ_ne_zero _)
  | m :: ms, t :: ts, o :: os, hts, hos => by
    rw [List.length_cons, List.length_cons] at hts hos
    obtain ⟨h1, h2, h3, h4⟩ := splitNFDoc_spec numRet ms ts os
      (Nat.succ_injective hts) (Nat.succ_injective hos)
    by_cases hd : isDenied m
    · simp [splitNFDoc, hd, h1, h2, h3, h4, List.filter_cons, List.replicate_succ]
    · simp [splitNFDoc, hd, h1, h2, h3, h4, List.filter_cons]

theorem rangeMap_getD_zero {α : Type} (g : ℕ → α) (n : ℕ) (d : α) (h : 0 < n) :
    ((List.range n).map g).getD 0 d = g 0 := by
  cases n with
  | zero => exact absurd h (lt_irrefl 0)
  | succ n => rw [List.range_succ_eq_map, List.map_cons, List.getD_cons_zero]

/-- C2: behaviour of `__call__` on a document whose mention `m` contains a
deny-listed token (lines 371-403). (a) In single-answer mode
(`num_entities_to_return == 1`) the deny-list branch stores a bare string in
`entity_ids`, so `find_labels` reaches its untaken `else` branch whose body
reads the undefined name `entity_id` (line 767) and the whole call raises
`NameError`: no mention of the batch resolves to anything, refuting the claim
in that mode. (b) Otherwise the document's output mentions are reordered
deny-listed-first, and each deny-listed mention yields exactly the sentinel
id list `["not in wiki"]` with confidence `[(0.0, 0, 0.0)]`, values that are
fixed constants independent of the inverted index and of the ANN oracle. -/
theorem C2_denylist_sentinel (cfg : Cfg) (morph : String → String)
    (faiss : ℕ → List String → List FaissRow)
    (ranker : List String → List (List String) → List (List (String × ℚ)))
    (ms ts : List String) (os : List (ℕ × ℕ))
    (msB tsB : List (List String)) (osB : List (List (ℕ × ℕ)))
    (sentsB : List (List String)) (soB : List (List (ℕ × ℕ))) (m : String)
    (hm : m ∈ ms) (hd : isDenied m = true)
    (hts : ts.length = ms.length) (hos : os.length = ms.length) :
    (cfg.numEntitiesToReturn = 1 →
      callSep cfg morph faiss ranker (ms :: msB) (os :: osB) (ts :: tsB) soB sentsB = none)
    ∧ (cfg.numEntitiesToReturn ≠ 1 → ∀ out,
        callSep cfg morph faiss ranker (ms :: msB) (os :: osB) (ts :: tsB) soB sentsB =
          some out →
        out.substrs.getD 0 [] =
          ms.filter (fun x => isDenied x) ++ ms.filter (fun x => !isDenied x) ∧
        ∀ j < (ms.filter (fun x => isDenied x)).length,
          (out.ids.getD 0 []).getD j (EntRes.many []) = EntRes.many [notFoundStr] ∧
          (out.confs.getD 0 []).getD j (ConfRes.many []) =
            ConfRes.many [ConfVal.tup (0, 0, 0)]) := by
  obtain ⟨h1, h2, h3, h4⟩ := splitNFDoc_spec cfg.numEntitiesToReturn ms ts os hts hos
  have hsplits : callSplits cfg (ms :: msB) (ts :: tsB) (os :: osB) =
      splitNFDoc cfg.numEntitiesToReturn ms ts os ::
        splitNFBatch cfg.numEntitiesToReturn msB tsB osB := rfl
  have hpos : 0 < (callSplits cfg (ms :: msB) (ts :: tsB) (os :: osB)).length := by
    rw [hsplits, List.length_cons]
    exact Nat.succ_pos _
  have hkpos : 0 < (ms.filter (fun x => isDenied x)).length := by
    have : m ∈ ms.filter (fun x => isDenied x) := List.mem_filter.mpr ⟨hm, hd⟩
    exact List.length_pos.mpr (List.ne_nil_of_mem this)
  have hids0 : (callIds cfg morph faiss ranker (ms :: msB) (ts :: tsB) (os :: osB)
      sentsB soB).getD 0 [] =
      List.replicate (ms.filter (fun x => isDenied x)).length
        (nfEntry cfg.numEntitiesToReturn) ++
      (callLink cfg morph faiss ranker (ms :: msB) (ts :: tsB) (os :: osB)
        sentsB soB).1.getD 0 [] := by
    rw [callIds, rangeMap_getD_zero _ _ _ hpos, hsplits, List.getD_cons_zero, h3]
  constructor
  · intro hnum
    have hone : EntRes.one notFoundStr ∈ (callIds cfg morph faiss ranker
        (ms :: msB) (ts :: tsB) (os :: osB) sentsB soB).getD 0 [] := by
      rw [hids0]
      refine List.mem_append_left _ (List.mem_replicate.mpr ⟨?_, ?_⟩)
      · omega
      · rw [nfEntry, if_pos hnum]
    have hmem : (callIds cfg morph faiss ranker (ms :: msB) (ts :: tsB) (os :: osB)
        sentsB soB).getD 0 [] ∈
        callIds cfg morph faiss ranker (ms :: msB) (ts :: tsB) (os :: osB) sentsB soB := by
      rw [callIds, rangeMap_getD_zero _ _ _ hpos]
      exact List.mem_map.mpr ⟨0, List.mem_range.mpr hpos, rfl⟩
    have hnone : findLabels cfg.qToLabel (callIds cfg morph faiss ranker
        (ms :: msB) (ts :: tsB) (os :: osB) sentsB soB) = none :=
      findLabels_mem_none _ _ _ hmem (findLabelsList_one_none _ _ _ hone)
    rw [callSep_eq, hnone]
  · intro hnum out hout
    rw [callSep_eq] at hout
    cases hfl : findLabels cfg.qToLabel (callIds cfg morph faiss ranker
        (ms :: msB) (ts :: tsB) (os :: osB) sentsB soB) with
    | none =>
      rw [hfl] at hout
      exact Option.noConfusion hout
    | some labels =>
      rw [hfl] at hout
      have hout' := Option.some_inj.mp hout
      refine ⟨?_, ?_⟩
      · rw [← hout']
        show (callSubstrs cfg (ms :: msB) (ts :: tsB) (os :: osB)).getD 0 [] = _
        rw [callSubstrs, rangeMap_getD_zero _ _ _ hpos, hsplits, List.getD_cons_zero, h1, h2]
      · intro j hj
        constructor
        · rw [← hout']
          show ((callIds cfg morph faiss ranker (ms :: msB) (ts :: tsB) (os :: osB)
            sentsB soB).getD 0 []).getD j (EntRes.many []) = _
          rw [hids0, List.getD_append _ _ _ _ (by rw [List.length_replicate]; exact hj)]
          have : (List.replicate (ms.filter (fun x => isDenied x)).length
              (nfEntry cfg.numEntitiesToReturn)).getD j (EntRes.many []) =
              nfEntry cfg.numEntitiesToReturn := by
            rw [List.getD_eq_getElem _ _ (by rw [List.length_replicate]; exact hj)]
            exact List.getElem_replicate _ _
          rw [this, nfEntry, if_neg hnum]
        · rw [← hout']
          show ((callConfs cfg morph faiss ranker (ms :: msB) (ts :: tsB) (os :: osB)
            sentsB soB).getD 0 []).getD j (ConfRes.many []) = _
          rw [callConfs, rangeMap_getD_zero _ _ _ hpos, hsplits, List.getD_cons_zero, h4,
            List.getD_append _ _ _ _ (by rw [List.length_replicate]; exact hj)]
          have : (List.replicate (ms.filter (fun x => isDenied x)).length
              (nfConfEntry cfg.numEntitiesToReturn)).getD j (ConfRes.many []) =
              nfConfEntry cfg.numEntitiesToReturn := by
            rw [List.getD_eq_getElem _ _ (by rw [List.length_replicate]; exact hj)]
            exact List.getElem_replicate _ _
          rw [this, nfConfEntry, if_neg hnum]

/-! ## Mention-count bookkeeping of the accumulation dict (claim C1)

`candidate_entities_dict` is keyed by mention index; the flush-on-counter
-change discipline files exactly one entry per mention, in mention order, so
its key list is `range m`. -/

theorem appendEntry_keys {κ α : Type} [DecidableEq κ] (d : List (κ × List α)) (k : κ)
    (xs : List α) :
    alistKeys (appendEntry d k xs) =
      if k ∈ alistKeys d then alistKeys d else alistKeys d ++ [k] := by
  induction d with
  | nil => simp [appendEntry]
  | cons p t ih =>
    obtain ⟨a, v⟩ := p
    rw [appendEntry]
    by_cases hak : a = k
    · subst hak
      rw [if_pos rfl, alistKeys_cons, alistKeys_cons,
        if_pos (List.mem_cons_self _ _)]
    · rw [if_neg hak, alistKeys_cons, alistKeys_cons, ih]
      by_cases hk : k ∈ alistKeys t
      · rw [if_pos hk, if_pos (List.mem_cons_of_mem _ hk)]
      · rw [if_neg hk, if_neg (fun hc => ((List.mem_cons.mp hc).elim
          (fun he => hak he.symm) hk)), List.cons_append]

theorem accumStep_prevIndex (idlist : List (String × List (String × ℕ)))
    (tsets : List (String × List String)) (wordKeys : List String) (cells : ℕ)
    (fndWords : List String) (rows : List FaissRow) (st : AccumSt) (it : WordItem) :
    (accumStep idlist tsets wordKeys cells fndWords rows st it).prevIndex = it.index := rfl

theorem accumStep_prevCount (idlist : List (String × List (String × ℕ)))
    (tsets : List (String × List String)) (wordKeys : List String) (cells : ℕ)
    (fndWords : List String) (rows : List FaissRow) (st : AccumSt) (it : WordItem) :
    (accumStep idlist tsets wordKeys cells fndWords rows st it).prevCount = it.count := rfl

theorem accumStep_keys (idlist : List (String × List (String × ℕ)))
    (tsets : List (String × List String)) (wordKeys : List String) (cells : ℕ)
    (fndWords : List String) (rows : List FaissRow) (st : AccumSt) (it : WordItem) :
    alistKeys (accumStep idlist tsets wordKeys cells fndWords rows st it).dict =
      if it.count ≠ st.prevCount then
        (if st.prevIndex ∈ alistKeys st.dict then alistKeys st.dict
         else alistKeys st.dict ++ [st.prevIndex])
      else alistKeys st.dict := by
  by_cases h : it.count ≠ st.prevCount
  · rw [if_pos h]
    have hd : (accumStep idlist tsets wordKeys cells fndWords rows st it).dict =
        appendEntry st.dict st.prevIndex (st.cand.map (fun pc => (pc.1.1, pc.1.2, pc.2))) := by
      simp only [accumStep, if_pos h]
    rw [hd, appendEntry_keys]
  · rw [if_neg h]
    have hd : (accumStep idlist tsets wordKeys cells fndWords rows st it).dict = st.dict := by
      simp only [accumStep, if_neg h]
    rw [hd]

theorem accumStep_keysP (idlist : List (String × List (String × ℕ)))
    (tsets : List (String × List String)) (wordKeys : List String) (cells : ℕ)
    (fndWords : List String) (rows : List FaissRow) (i wc : ℕ) (st : AccumSt)
    (it : WordItem) (hidx : it.index = i) (hcount : it.count = wc)
    (hkeys : alistKeys st.dict = List.range st.prevIndex ∨
      alistKeys st.dict = List.range (st.prevIndex + 1))
    (hprev : st.prevIndex = i ∨ st.prevIndex + 1 = i)
    (hcnt : st.prevCount < wc ∨ (st.prevCount = wc ∧ st.prevIndex = i)) :
    (accumStep idlist tsets wordKeys cells fndWords rows st it).prevIndex = i ∧
    (accumStep idlist tsets wordKeys cells fndWords rows st it).prevCount = wc ∧
    (alistKeys (accumStep idlist tsets wordKeys cells fndWords rows st it).dict =
        List.range i ∨
      alistKeys (accumStep idlist tsets wordKeys cells fndWords rows st it).dict =
        List.range (i + 1)) := by
  refine ⟨by rw [accumStep_prevIndex, hidx], by rw [accumStep_prevCount, hcount], ?_⟩
  rw [accumStep_keys]
  by_cases h : it.count ≠ st.prevCount
  · rw [if_pos h]
    rcases hkeys with hk | hk
    · have hmem : st.prevIndex ∉ alistKeys st.dict := by
        rw [hk, List.mem_range]
        exact lt_irrefl _
      rw [if_neg hmem, hk, ← List.range_succ, Nat.succ_eq_add_one]
      rcases hprev with hp | hp
      · right
        rw [hp]
      · left
        rw [hp]
    · have hmem : st.prevIndex ∈ alistKeys st.dict := by
        rw [hk, List.mem_range]
        exact Nat.lt_succ_self _
      rw [if_pos hmem, hk]
      rcases hprev with hp | hp
      · right
        rw [hp]
      · left
        rw [hp]
  · rw [if_neg h]
    rw [not_not] at h
    rcases hcnt with hc | ⟨hc1, hc2⟩
    · exact absurd hc (by omega)
    · rcases hkeys with hk | hk
      · left
        rw [hk, hc2]
      · right
        rw [hk, hc2]

theorem foldWord_keys (idlist : List (String × List (String × ℕ)))
    (tsets : List (String × List String)) (wordKeys : List String) (cells : ℕ)
    (fndWords : List String) (rows : List FaissRow) (morph : String → String)
    (i wc : ℕ) (tag w : String) (st : AccumSt)
    (hkeys : alistKeys st.dict = List.range st.prevIndex ∨
      alistKeys st.dict = List.range (st.prevIndex + 1))
    (hprev : st.prevIndex = i ∨ st.prevIndex + 1 = i)
    (hcnt : st.prevCount < wc ∨ (st.prevCount = wc ∧ st.prevIndex = i)) :
    ((expandWord idlist morph i tag wc w).foldl
        (accumStep idlist tsets wordKeys cells fndWords rows) st).prevIndex = i ∧
    ((expandWord idlist morph i tag wc w).foldl
        (accumStep idlist tsets wordKeys cells fndWords rows) st).prevCount = wc ∧
    (alistKeys ((expandWord idlist morph i tag wc w).foldl
        (accumStep idlist tsets wordKeys cells fndWords rows) st).dict = List.range i ∨
      alistKeys ((expandWord idlist morph i tag wc w).foldl
        (accumStep idlist tsets wordKeys cells fndWords rows) st).dict = List.range (i + 1)) := by
  rw [expandWord]
  by_cases hm : morph w ≠ w
  · rw [if_pos hm, List.foldl_cons, List.foldl_cons, List.foldl_nil]
    obtain ⟨h1, h2, h3⟩ := accumStep_keysP idlist tsets wordKeys cells fndWords rows i wc st
      ⟨i, wc, tag, w, (alistGet? idlist w).isSome⟩ rfl rfl hkeys hprev hcnt
    exact accumStep_keysP idlist tsets wordKeys cells fndWords rows i wc _
      ⟨i, wc, tag, morph w, (alistGet? idlist (morph w)).isSome⟩ rfl rfl
      (by rw [h1]; exact h3) (Or.inl h1) (Or.inr ⟨h2, h1⟩)
  · rw [if_neg hm, List.foldl_cons, List.foldl_nil]
    exact accumStep_keysP idlist tsets wordKeys cells fndWords rows i wc st
      ⟨i, wc, tag, w, (alistGet? idlist w).isSome⟩ rfl rfl hkeys hprev hcnt

theorem foldMention_keys (idlist : List (String × List (String × ℕ)))
    (tsets : List (String × List String)) (wordKeys : List String) (cells : ℕ)
    (fndWords : List String) (rows : List FaissRow) (morph : String → String)
    (i : ℕ) (tag : String) :
    ∀ (ws : List String) (wc : ℕ) (st : AccumSt), ws ≠ [] →
      (alistKeys st.dict = List.range st.prevIndex ∨
        alistKeys st.dict = List.range (st.prevIndex + 1)) →
      (st.prevIndex = i ∨ st.prevIndex + 1 = i) →
      (st.prevCount < wc ∨ (st.prevCount = wc ∧ st.prevIndex = i)) →
      ((mentionItems idlist morph i tag wc ws).foldl
          (accumStep idlist tsets wordKeys cells fndWords rows) st).prevIndex = i ∧
      ((mentionItems idlist morph i tag wc ws).foldl
          (accumStep idlist tsets wordKeys cells fndWords rows) st).prevCount + 1 =
        wc + ws.length ∧
      (alistKeys ((mentionItems idlist morph i tag wc ws).foldl
          (accumStep idlist tsets wordKeys cells fndWords rows) st).dict = List.range i ∨
        alistKeys ((mentionItems idlist morph i tag wc ws).foldl
          (accumStep idlist tsets wordKeys cells fndWords rows) st).dict = List.range (i + 1))
  | [], _, _, hne, _, _, _ => absurd rfl hne
  | [w], wc, st, _, hkeys, hprev, hcnt => by
    rw [mentionItems, mentionItems, List.append_nil]
    obtain ⟨h1, h2, h3⟩ := foldWord_keys idlist tsets wordKeys cells fndWords rows morph
      i wc tag w st hkeys hprev hcnt
    exact ⟨h1, by rw [h2, List.length_cons, List.length_nil], h3⟩
  | w :: w' :: ws', wc, st, _, hkeys, hprev, hcnt => by
    rw [mentionItems, List.foldl_append]
    obtain ⟨h1, h2, h3⟩ := foldWord_keys idlist tsets wordKeys cells fndWords rows morph
      i wc tag w st hkeys hprev hcnt
    obtain ⟨g1, g2, g3⟩ := foldMention_keys idlist tsets wordKeys cells fndWords rows morph
      i tag (w' :: ws') (wc + 1) _ (List.cons_ne_nil _ _) (by rw [h1]; exact h3)
      (Or.inl h1) (Or.inl (by rw [h2]; exact Nat.lt_succ_self wc))
    refine ⟨g1, ?_, g3⟩
    simp only [List.length_cons] at g2 ⊢
    omega

theorem foldMentions_keys (idlist : List (String × List (String × ℕ)))
    (tsets : List (String × List String)) (wordKeys : List String) (cells : ℕ)
    (fndWords : List String) (rows : List FaissRow) (morph : String → String) :
    ∀ (pairs : List (List String × String)) (i0 wc : ℕ) (st : AccumSt), pairs ≠ [] →
      (∀ p ∈ pairs, p.1 ≠ []) →
      (alistKeys st.dict = List.range st.prevIndex ∨
        alistKeys st.dict = List.range (st.prevIndex + 1)) →
      (st.prevIndex = i0 ∨ st.prevIndex + 1 = i0) →
      (st.prevCount < wc ∨ (st.prevCount = wc ∧ st.prevIndex = i0)) →
      ((classifyMentions idlist morph i0 wc pairs).foldl
          (accumStep idlist tsets wordKeys cells fndWords rows) st).prevIndex + 1 =
        i0 + pairs.length ∧
      (alistKeys ((classifyMentions idlist morph i0 wc pairs).foldl
          (accumStep idlist tsets wordKeys cells fndWords rows) st).dict =
          List.range ((classifyMentions idlist morph i0 wc pairs).foldl
            (accumStep idlist tsets wordKeys cells fndWords rows) st).prevIndex ∨
        alistKeys ((classifyMentions idlist morph i0 wc pairs).foldl
          (accumStep idlist tsets wordKeys cells fndWords rows) st).dict =
          List.range (((classifyMentions idlist morph i0 wc pairs).foldl
            (accumStep idlist tsets wordKeys cells fndWords rows) st).prevIndex + 1))
  | [], _, _, _, hne, _, _, _, _ => absurd rfl hne
  | [(ws, tag)], i0, wc, st, _, hall, hkeys, hprev, hcnt => by
    rw [classifyMentions, classifyMentions, List.append_nil]
    obtain ⟨h1, _, h3⟩ := foldMention_keys idlist tsets wordKeys cells fndWords rows morph
      i0 tag ws wc st (hall (ws, tag) (List.mem_cons_self _ _)) hkeys hprev hcnt
    refine ⟨by rw [h1, List.length_cons, List.length_nil], ?_⟩
    rw [h1]
    exact h3
  | (ws, tag) :: p' :: pairs', i0, wc, st, _, hall, hkeys, hprev, hcnt => by
    rw [classifyMentions, List.foldl_append]
    obtain ⟨h1, h2, h3⟩ := foldMention_keys idlist tsets wordKeys cells fndWords rows morph
      i0 tag ws wc st (hall (ws, tag) (List.mem_cons_self _ _)) hkeys hprev hcnt
    obtain ⟨g1, g2⟩ := foldMentions_keys idlist tsets wordKeys cells fndWords rows morph
      (p' :: pairs') (i0 + 1) (wc + ws.length) _ (List.cons_ne_nil _ _)
      (fun p hp => hall p (List.mem_cons_of_mem _ hp)) (by rw [h1]; exact h3)
      (Or.inr (by rw [h1])) (Or.inl (by omega))
    refine ⟨?_, g2⟩
    simp only [List.length_cons] at g1 ⊢
    omega

theorem classifyMentions_ne_nil (idlist : List (String × List (String × ℕ)))
    (morph : String → String) (i0 wc : ℕ) (pairs : List (List String × String))
    (hne : pairs ≠ []) (hall : ∀ p ∈ pairs, p.1 ≠ []) :
    classifyMentions idlist morph i0 wc pairs ≠ [] := by
  cases pairs with
  | nil => exact absurd rfl hne
  | cons p rest =>
    obtain ⟨ws, tag⟩ := p
    have hws : ws ≠ [] := hall (ws, tag) (List.mem_cons_self _ _)
    cases ws with
    | nil => exact absurd rfl hws
    | cons w ws' =>
      rw [classifyMentions, mentionItems, expandWord]
      simp

theorem accumDict_keys (idlist : List (String × List (String × ℕ)))
    (tsets : List (String × List String)) (wordKeys : List String) (cells : ℕ)
    (fndWords : List String) (rows : List FaissRow) (morph : String → String)
    (wordLists : List (List String)) (tags : List String) (wc0 : ℕ)
    (hlen : tags.length = wordLists.length) (hne : wordLists ≠ [])
    (hall : ∀ ws ∈ wordLists, ws ≠ []) :
    alistKeys (accumDict idlist tsets wordKeys cells fndWords rows
      (classifyDoc idlist morph wordLists tags wc0)) = List.range wordLists.length := by
  have hplen : (wordLists.zip tags).length = wordLists.length := by
    rw [List.length_zip, hlen, min_self]
  have hpne : wordLists.zip tags ≠ [] := by
    intro hc
    rw [hc] at hplen
    exact hne (List.eq_nil_of_length_eq_zero hplen.symm)
  have hpall : ∀ p ∈ wordLists.zip tags, p.1 ≠ [] := by
    intro p hp
    obtain ⟨a, b⟩ := p
    exact hall a (List.of_mem_zip hp).1
  obtain ⟨h1, h2⟩ := foldMentions_keys idlist tsets wordKeys cells fndWords rows morph
    (wordLists.zip tags) 0 wc0 accumInit hpne hpall (Or.inl (by simp [accumInit, alistKeys]))
    (Or.inl rfl) (by
      rcases Nat.eq_zero_or_pos wc0 with h | h
      · exact Or.inr ⟨h.symm, rfl⟩
      · exact Or.inl h)
  have hcd : classifyDoc idlist morph wordLists tags wc0 =
      classifyMentions idlist morph 0 wc0 (wordLists.zip tags) := rfl
  have hcne := classifyMentions_ne_nil idlist morph 0 wc0 (wordLists.zip tags) hpne hpall
  rw [hcd]
  cases hitems : classifyMentions idlist morph 0 wc0 (wordLists.zip tags) with
  | nil => exact absurd hitems hcne
  | cons a l =>
    rw [hitems] at h1 h2
    show alistKeys (appendEntry
      ((a :: l).foldl (accumStep idlist tsets wordKeys cells fndWords rows) accumInit).dict
      ((a :: l).foldl (accumStep idlist tsets wordKeys cells fndWords rows)
        accumInit).prevIndex
      (((a :: l).foldl (accumStep idlist tsets wordKeys cells fndWords rows)
        accumInit).cand.map (fun pc => (pc.1.1, pc.1.2, pc.2)))) = _
    rw [appendEntry_keys]
    rcases h2 with hk | hk
    · have hmem : ((a :: l).foldl (accumStep idlist tsets wordKeys cells fndWords rows)
          accumInit).prevIndex ∉ alistKeys ((a :: l).foldl
          (accumStep idlist tsets wordKeys cells fndWords rows) accumInit).dict := by
        rw [hk, List.mem_range]
        exact lt_irrefl _
      rw [if_neg hmem, hk, ← List.range_succ, Nat.succ_eq_add_one, h1, Nat.zero_add, hplen]
    · have hmem : ((a :: l).foldl (accumStep idlist tsets wordKeys cells fndWords rows)
          accumInit).prevIndex ∈ alistKeys ((a :: l).foldl
          (accumStep idlist tsets wordKeys cells fndWords rows) accumInit).dict := by
        rw [hk, List.mem_range]
        exact Nat.lt_succ_self _
      rw [if_pos hmem, hk, h1, Nat.zero_add, hplen]

theorem splitNFDoc_lens (numRet : ℕ) :
    ∀ (ms ts : List String) (os : List (ℕ × ℕ)),
      (splitNFDoc numRet ms ts os).fndTags.length =
        (splitNFDoc numRet ms ts os).fndSubstr.length ∧
      (splitNFDoc numRet ms ts os).fndOffsets.length =
        (splitNFDoc numRet ms ts os).fndSubstr.length
  | [], ts, os => by cases ts <;> cases os <;> simp [splitNFDoc, emptySplit]
  | _ :: _, [], os => by simp [splitNFDoc, emptySplit]
  | _ :: _, _ :: _, [] => by simp [splitNFDoc, emptySplit]
  | m :: ms, t :: ts, o :: os => by
    obtain ⟨h1, h2⟩ := splitNFDoc_lens numRet ms ts os
    by_cases hd : isDenied m
    · simp [splitNFDoc, hd, h1, h2]
    · simp [splitNFDoc, hd, h1, h2]

theorem zip3_length_eq {α β γ : Type} :
    ∀ (a : List α) (b : List β) (c : List γ), b.length = a.length →
      c.length = a.length → (zip3 a b c).length = a.length
  | [], b, c, _, _ => by cases b <;> cases c <;> rfl
  | x :: a, b, c, hb, hc => by
    obtain ⟨y, b', rfl⟩ := List.exists_cons_of_ne_nil
      (List.ne_nil_of_length_pos (by rw [hb]; exact Nat.succ_pos _))
    obtain ⟨z, c', rfl⟩ := List.exists_cons_of_ne_nil
      (List.ne_nil_of_length_pos (by rw [hc]; exact Nat.succ_pos _))
    rw [List.length_cons, List.length_cons] at hb hc
    show (zip3 a b' c').length + 1 = a.length + 1
    rw [zip3_length_eq a b' c' (Nat.succ_injective hb) (Nat.succ_injective hc)]

theorem descLoop_length (numRet : ℕ) :
    ∀ (ws cs : List (List String)) (ts : List String) (ls : List ℕ)
      (ess : List (List (String × (ℚ × ℕ)))) (scs : List (List (String × ℚ))),
      cs.length = ws.length → ts.length = ws.length → ls.length = ws.length →
      ess.length = ws.length → scs.length = ws.length →
      (descLoop numRet ws cs ts ls ess scs).length = ws.length
  | [], cs, ts, ls, ess, scs, h1, h2, h3, h4, h5 => by
    rw [List.eq_nil_of_length_eq_zero h1, List.eq_nil_of_length_eq_zero h2,
      List.eq_nil_of_length_eq_zero h3, List.eq_nil_of_length_eq_zero h4,
      List.eq_nil_of_length_eq_zero h5]
    rfl
  | w :: ws, cs, ts, ls, ess, scs, h1, h2, h3, h4, h5 => by
    obtain ⟨c, cs', rfl⟩ := List.exists_cons_of_ne_nil
      (List.ne_nil_of_length_pos (by rw [h1]; exact Nat.succ_pos _))
    obtain ⟨t, ts', rfl⟩ := List.exists_cons_of_ne_nil
      (List.ne_nil_of_length_pos (by rw [h2]; exact Nat.succ_pos _))
    obtain ⟨l, ls', rfl⟩ := List.exists_cons_of_ne_nil
      (List.ne_nil_of_length_pos (by rw [h3]; exact Nat.succ_pos _))
    obtain ⟨e, ess', rfl⟩ := List.exists_cons_of_ne_nil
      (List.ne_nil_of_length_pos (by rw [h4]; exact Nat.succ_pos _))
    obtain ⟨sc, scs', rfl⟩ := List.exists_cons_of_ne_nil
      (List.ne_nil_of_length_pos (by rw [h5]; exact Nat.succ_pos _))
    simp only [List.length_cons] at h1 h2 h3 h4 h5
    show (descLoop numRet ws cs' ts' ls' ess' scs').length + 1 = ws.length + 1
    rw [descLoop_length numRet ws cs' ts' ls' ess' scs' (Nat.succ_injective h1)
      (Nat.succ_injective h2) (Nat.succ_injective h3) (Nat.succ_injective h4)
      (Nat.succ_injective h5)]

theorem rankByDescription_lens (cfg : Cfg)
    (ranker : List String → List (List String) → List (List (String × ℚ)))
    (msl : List (List String)) (offsl : List (ℕ × ℕ)) (candsl : List (List String))
    (tags : List String) (escoresl : List (List (String × (ℚ × ℕ))))
    (sents : List String) (soffs : List (ℕ × ℕ)) (lens : List ℕ)
    (hranker : ∀ cs es, (ranker cs es).length = cs.length)
    (hoffs : offsl.length = msl.length) (hcands : candsl.length = msl.length)
    (htags : tags.length = msl.length) (hesc : escoresl.length = msl.length)
    (hlens : lens.length = msl.length) :
    (rankByDescription cfg ranker msl offsl candsl tags escoresl sents soffs
      lens).1.length = msl.length ∧
    (rankByDescription cfg ranker msl offsl candsl tags escoresl sents soffs
      lens).2.length = msl.length := by
  have hsc : (ranker ((zip3 msl offsl candsl).map
      (fun t => buildContext cfg sents soffs t.2.1)) candsl).length = msl.length := by
    rw [hranker, List.length_map, zip3_length_eq _ _ _ hoffs hcands]
  have hres := descLoop_length cfg.numEntitiesToReturn msl candsl tags lens escoresl
    (ranker ((zip3 msl offsl candsl).map
      (fun t => buildContext cfg sents soffs t.2.1)) candsl)
    hcands htags hlens hesc hsc
  constructor
  · show ((descLoop cfg.numEntitiesToReturn msl candsl tags lens escoresl
      (ranker ((zip3 msl offsl candsl).map
        (fun t => buildContext cfg sents soffs t.2.1)) candsl)).map Prod.fst).length = _
    rw [List.length_map, hres]
  · show ((descLoop cfg.numEntitiesToReturn msl candsl tags lens escoresl
      (ranker ((zip3 msl offsl candsl).map
        (fun t => buildContext cfg sents soffs t.2.1)) candsl)).map Prod.snd).length = _
    rw [List.length_map, hres]

theorem linkDoc_lens (cfg : Cfg)
    (ranker : List String → List (List String) → List (List (String × ℚ)))
    (morph : String → String) (ws : List (List String)) (offs : List (ℕ × ℕ))
    (sents : List String) (soffs : List (ℕ × ℕ)) (tags : List String)
    (rows : List FaissRow) (wc0 : ℕ)
    (hranker : ∀ cs es, (ranker cs es).length = cs.length)
    (htags : tags.length = ws.length) (hoffs : offs.length = ws.length)
    (hall : ∀ w ∈ ws, w ≠ []) :
    (linkDoc cfg ranker ws offs sents soffs
      (classifyDoc cfg.wordToIdlist morph ws tags wc0) tags rows).1.length = ws.length ∧
    (linkDoc cfg ranker ws offs sents soffs
      (classifyDoc cfg.wordToIdlist morph ws tags wc0) tags rows).2.length = ws.length := by
  by_cases hws : ws = []
  · subst hws
    simp [linkDoc]
  · have hwsE : ws.isEmpty = false := by
      cases ws with
      | nil => exact absurd rfl hws
      | cons a l => rfl
    have hkeys := accumDict_keys cfg.wordToIdlist cfg.entitiesTypesSets
      (cfg.wordToIdlist.map Prod.fst) cfg.numFaissCells
      (fndWordsOf (classifyDoc cfg.wordToIdlist morph ws tags wc0)) rows morph
      ws tags wc0 htags hws hall
    have hdlen : (accumDict cfg.wordToIdlist cfg.entitiesTypesSets
        (cfg.wordToIdlist.map Prod.fst) cfg.numFaissCells
        (fndWordsOf (classifyDoc cfg.wordToIdlist morph ws tags wc0)) rows
        (classifyDoc cfg.wordToIdlist morph ws tags wc0)).length = ws.length := by
      have h := congrArg List.length hkeys
      rw [List.length_range] at h
      rw [← h]
      show _ = (List.map Prod.fst _).length
      rw [List.length_map]
    simp only [linkDoc, hwsE, Bool.false_eq_true, if_false]
    by_cases hud : cfg.useDescriptions
    · simp only [hud, if_true]
      refine rankByDescription_lens cfg ranker ws offs _ tags _ sents soffs _ hranker hoffs
        ?_ htags ?_ ?_
      · simp [List.length_map, List.length_zip, List.length_zipWith, hdlen]
      · simp [List.length_map, List.length_zip, List.length_zipWith, hdlen]
      · rw [List.length_map]
    · simp only [hud, if_false]
      constructor
      · simp [List.length_map, List.length_zip, List.length_zipWith, hdlen]
      · simp [List.length_map, List.length_zip, List.length_zipWith, hdlen]

theorem padRows_ne_nil (docs : ℕ) (rows : List (List FaissRow)) (h : 0 < docs) :
    padRows docs rows ≠ [] := by
  apply List.ne_nil_of_length_pos
  rw [padRows, List.length_append, List.length_replicate]
  omega

theorem linkDocs_getD_zero (cfg : Cfg)
    (ranker : List String → List (List String) → List (List (String × ℚ)))
    (w0 : List (List String)) (wB : List (List (List String)))
    (o0 : List (ℕ × ℕ)) (oB : List (List (ℕ × ℕ)))
    (s0 : List String) (sB : List (List String))
    (so0 : List (ℕ × ℕ)) (soB : List (List (ℕ × ℕ)))
    (i0 : List WordItem) (iB : List (List WordItem))
    (t0 : List String) (tB : List (List String))
    (R : List (List FaissRow)) (hR : R ≠ []) :
    ∃ r0 : List FaissRow,
      (linkDocs cfg ranker (w0 :: wB) (o0 :: oB) (s0 :: sB) (so0 :: soB) (i0 :: iB)
        (t0 :: tB) R).1.getD 0 [] = (linkDoc cfg ranker w0 o0 s0 so0 i0 t0 r0).1 ∧
      (linkDocs cfg ranker (w0 :: wB) (o0 :: oB) (s0 :: sB) (so0 :: soB) (i0 :: iB)
        (t0 :: tB) R).2.getD 0 [] = (linkDoc cfg ranker w0 o0 s0 so0 i0 t0 r0).2 := by
  obtain ⟨r0, rB, rfl⟩ := List.exists_cons_of_ne_nil hR
  exact ⟨r0, rfl, rfl⟩

theorem classifyBatch_cons (idlist : List (String × List (String × ℕ)))
    (morph : String → String) (wc : ℕ) (wl : List (List String)) (tg : List String)
    (rest : List (List (List String) × List String)) :
    classifyBatch idlist morph wc ((wl, tg) :: rest) =
      classifyDoc idlist morph wl tg wc ::
        classifyBatch idlist morph (wc + totalWords wl tg) rest := rfl

theorem linkEntities_unfold (cfg : Cfg) (morph : String → String)
    (faiss : ℕ → List String → List FaissRow)
    (ranker : List String → List (List String) → List (List (String × ℚ)))
    (eB tB : List (List String)) (oB : List (List (ℕ × ℕ)))
    (sB : List (List String)) (soB : List (List (ℕ × ℕ))) :
    linkEntities cfg morph faiss ranker eB tB oB sB soB =
      linkDocs cfg ranker (eB.map (fun l => l.map (splitWords cfg.stopwords))) oB sB soB
        (classifyBatch cfg.wordToIdlist morph 0
          ((eB.map (fun l => l.map (splitWords cfg.stopwords))).zip tB)) tB
        (padRows (eB.map (fun l => l.map (splitWords cfg.stopwords))).length
          (splitRows
            ((if (nfWordDocs (classifyBatch cfg.wordToIdlist morph 0
                ((eB.map (fun l => l.map (splitWords cfg.stopwords))).zip tB))).isEmpty
              then []
              else faiss cfg.numFaissCandidateEntities
                ((nfWordDocs (classifyBatch cfg.wordToIdlist morph 0
                  ((eB.map (fun l => l.map (splitWords cfg.stopwords))).zip
                    tB))).map Prod.fst)).zip
              ((nfWordDocs (classifyBatch cfg.wordToIdlist morph 0
                ((eB.map (fun l => l.map (splitWords cfg.stopwords))).zip
                  tB))).map Prod.snd)))) := rfl

theorem linkEntities_getD_zero (cfg : Cfg) (morph : String → String)
    (faiss : ℕ → List String → List FaissRow)
    (ranker : List String → List (List String) → List (List (String × ℚ)))
    (e0 : List String) (eB : List (List String)) (t0 : List String)
    (tB : List (List String)) (o0 : List (ℕ × ℕ)) (oB : List (List (ℕ × ℕ)))
    (s0 : List String) (sB : List (List String)) (so0 : List (ℕ × ℕ))
    (soB : List (List (ℕ × ℕ))) :
    ∃ r0 : List FaissRow,
      (linkEntities cfg morph faiss ranker (e0 :: eB) (t0 :: tB) (o0 :: oB) (s0 :: sB)
        (so0 :: soB)).1.getD 0 [] =
        (linkDoc cfg ranker (e0.map (splitWords cfg.stopwords)) o0 s0 so0
          (classifyDoc cfg.wordToIdlist morph (e0.map (splitWords cfg.stopwords)) t0 0)
          t0 r0).1 ∧
      (linkEntities cfg morph faiss ranker (e0 :: eB) (t0 :: tB) (o0 :: oB) (s0 :: sB)
        (so0 :: soB)).2.getD 0 [] =
        (linkDoc cfg ranker (e0.map (splitWords cfg.stopwords)) o0 s0 so0
          (classifyDoc cfg.wordToIdlist morph (e0.map (splitWords cfg.stopwords)) t0 0)
          t0 r0).2 := by
  rw [linkEntities_unfold, List.map_cons, List.zip_cons_cons, classifyBatch_cons]
  apply linkDocs_getD_zero
  apply padRows_ne_nil
  simp

/-- C1: per-document output counts and order of `__call__` (lines 321-426) on
document 0 of the batch, for a mention list whose tags and offsets run
parallel, whose every mention keeps at least one word after stopword
filtering, and a reranker oracle answering one score list per context. When
the call returns (`find_labels` does not raise), the document's output mention
list is the deny-listed mentions followed by the remaining mentions in their
original relative orders — a permutation of, and in general a different order
from, the input — and the entity-id and confidence lists each carry exactly
one entry per input mention. -/
theorem C1_per_mention_results (cfg : Cfg) (morph : String → String)
    (faiss : ℕ → List String → List FaissRow)
    (ranker : List String → List (List String) → List (List (String × ℚ)))
    (ms ts : List String) (os : List (ℕ × ℕ))
    (msB tsB : List (List String)) (osB : List (List (ℕ × ℕ)))
    (sents : List String) (sB : List (List String))
    (soffs : List (ℕ × ℕ)) (soB : List (List (ℕ × ℕ)))
    (hts : ts.length = ms.length) (hos : os.length = ms.length)
    (hwords : ∀ x ∈ ms, splitWords cfg.stopwords x ≠ [])
    (hranker : ∀ cs es, (ranker cs es).length = cs.length) :
    ∀ out, callSep cfg morph faiss ranker (ms :: msB) (os :: osB) (ts :: tsB)
        (soffs :: soB) (sents :: sB) = some out →
      out.substrs.getD 0 [] =
        ms.filter (fun x => isDenied x) ++ ms.filter (fun x => !isDenied x) ∧
      (out.substrs.getD 0 []).length = ms.length ∧
      (out.ids.getD 0 []).length = ms.length ∧
      (out.confs.getD 0 []).length = ms.length := by
  intro out hout
  obtain ⟨h1, h2, h3, h4⟩ := splitNFDoc_spec cfg.numEntitiesToReturn ms ts os hts hos
  obtain ⟨hl1, hl2⟩ := splitNFDoc_lens cfg.numEntitiesToReturn ms ts os
  have hsplits : callSplits cfg (ms :: msB) (ts :: tsB) (os :: osB) =
      splitNFDoc cfg.numEntitiesToReturn ms ts os ::
        splitNFBatch cfg.numEntitiesToReturn msB tsB osB := rfl
  have hpos : 0 < (callSplits cfg (ms :: msB) (ts :: tsB) (os :: osB)).length := by
    rw [hsplits, List.length_cons]
    exact Nat.succ_pos _
  have hperm := List.filter_append_perm (fun x => isDenied x) ms
  have hCL : callLink cfg morph faiss ranker (ms :: msB) (ts :: tsB) (os :: osB)
      (sents :: sB) (soffs :: soB) =
      linkEntities cfg morph faiss ranker
        ((splitNFDoc cfg.numEntitiesToReturn ms ts os).fndSubstr ::
          (splitNFBatch cfg.numEntitiesToReturn msB tsB osB).map (fun s => s.fndSubstr))
        ((splitNFDoc cfg.numEntitiesToReturn ms ts os).fndTags ::
          (splitNFBatch cfg.numEntitiesToReturn msB tsB osB).map (fun s => s.fndTags))
        ((splitNFDoc cfg.numEntitiesToReturn ms ts os).fndOffsets ::
          (splitNFBatch cfg.numEntitiesToReturn msB tsB osB).map (fun s => s.fndOffsets))
        (sents :: sB) (soffs :: soB) := rfl
  obtain ⟨r0, hr1, hr2⟩ := linkEntities_getD_zero cfg morph faiss ranker
    (splitNFDoc cfg.numEntitiesToReturn ms ts os).fndSubstr
    ((splitNFBatch cfg.numEntitiesToReturn msB tsB osB).map (fun s => s.fndSubstr))
    (splitNFDoc cfg.numEntitiesToReturn ms ts os).fndTags
    ((splitNFBatch cfg.numEntitiesToReturn msB tsB osB).map (fun s => s.fndTags))
    (splitNFDoc cfg.numEntitiesToReturn ms ts os).fndOffsets
    ((splitNFBatch cfg.numEntitiesToReturn msB tsB osB).map (fun s => s.fndOffsets))
    sents sB soffs soB
  have hld := linkDoc_lens cfg ranker morph
    ((splitNFDoc cfg.numEntitiesToReturn ms ts os).fndSubstr.map (splitWords cfg.stopwords))
    (splitNFDoc cfg.numEntitiesToReturn ms ts os).fndOffsets sents soffs
    (splitNFDoc cfg.numEntitiesToReturn ms ts os).fndTags r0 0 hranker
    (by rw [List.length_map, hl1]) (by rw [List.length_map, hl2])
    (by
      intro w hw
      rw [List.mem_map] at hw
      obtain ⟨x, hx, hxe⟩ := hw
      rw [h2] at hx
      rw [← hxe]
      exact hwords x (List.mem_filter.mp hx).1)
  have hflen : ((splitNFDoc cfg.numEntitiesToReturn ms ts os).fndSubstr.map
      (splitWords cfg.stopwords)).length = (ms.filter (fun x => !isDenied x)).length := by
    rw [List.length_map, h2]
  rw [callSep_eq] at hout
  cases hfl : findLabels cfg.qToLabel (callIds cfg morph faiss ranker
      (ms :: msB) (ts :: tsB) (os :: osB) (sents :: sB) (soffs :: soB)) with
  | none =>
    rw [hfl] at hout
    exact Option.noConfusion hout
  | some labels =>
    rw [hfl] at hout
    have hout' := Option.some_inj.mp hout
    have hsub : out.substrs.getD 0 [] =
        ms.filter (fun x => isDenied x) ++ ms.filter (fun x => !isDenied x) := by
      rw [← hout']
      show (callSubstrs cfg (ms :: msB) (ts :: tsB) (os :: osB)).getD 0 [] = _
      rw [callSubstrs, rangeMap_getD_zero _ _ _ hpos, hsplits, List.getD_cons_zero, h1, h2]
    refine ⟨hsub, ?_, ?_, ?_⟩
    · rw [hsub, hperm.length_eq]
    · rw [← hout']
      show ((callIds cfg morph faiss ranker (ms :: msB) (ts :: tsB) (os :: osB)
        (sents :: sB) (soffs :: soB)).getD 0 []).length = _
      rw [callIds, rangeMap_getD_zero _ _ _ hpos, hsplits, List.getD_cons_zero, h3,
        List.length_append, List.length_replicate]
      have hlk : ((callLink cfg morph faiss ranker (ms :: msB) (ts :: tsB) (os :: osB)
          (sents :: sB) (soffs :: soB)).1.getD 0 []).length =
          (ms.filter (fun x => !isDenied x)).length := by
        rw [hCL, hr1, hld.1, hflen]
      rw [hlk, ← List.length_append, hperm.length_eq]
    · rw [← hout']
      show ((callConfs cfg morph faiss ranker (ms :: msB) (ts :: tsB) (os :: osB)
        (sents :: sB) (soffs :: soB)).getD 0 []).length = _
      rw [callConfs, rangeMap_getD_zero _ _ _ hpos, hsplits, List.getD_cons_zero, h4,
        List.length_append, List.length_replicate]
      have hlk : ((callLink cfg morph faiss ranker (ms :: msB) (ts :: tsB) (os :: osB)
          (sents :: sB) (soffs :: soB)).2.getD 0 []).length =
          (ms.filter (fun x => !isDenied x)).length := by
        rw [hCL, hr2, hld.2, hflen]
      rw [hlk, ← List.length_append, hperm.length_eq]

/-- Counterexample to C1's order clause: a concrete two-mention document
`["париж", "ооо ромашка"]` (second mention deny-listed) comes back from
`__call__` as `["ооо ромашка", "париж"]` — the deny-listed mention is moved to
the front, so the ranking results are not in input mention order. -/
theorem C1_order_counterexample :
    (callSep ⟨10, 20, 1, false, 5, false, 512, false, 150, [], [], [], [], []⟩ id
      (fun _ _ => [([], [])]) (fun _ _ => [])
      [["париж", "ооо ромашка"]] [[(0, 5), (6, 17)]] [["LOC", "ORG"]]
      [[(0, 22)]] [["париж столица франции"]] =
      some ⟨[["ооо ромашка", "париж"]],
        [[ConfRes.many [ConfVal.tup (0, 0, 0)], ConfRes.many []]],
        [[(6, 17), (0, 5)]],
        [[EntRes.many ["not in wiki"], EntRes.many []]],
        [["ORG", "LOC"]],
        [[LabelRes.many ["not in wiki"], LabelRes.many []]]⟩) ∧
    ([["ооо ромашка", "париж"]] : List (List String)) ≠ [["париж", "ооо ромашка"]] :=
  ⟨by rfl, by decide⟩

/-- Witness for C1 on the same concrete run (with a length-preserving reranker
oracle): the document's output substrings are the deny-listed-first
rearrangement and all three output lists have one entry per input mention. -/
theorem C1_per_mention_results_witness :
    (⟨[["ооо ромашка", "париж"]],
      [[ConfRes.many [ConfVal.tup (0, 0, 0)], ConfRes.many []]],
      [[(6, 17), (0, 5)]],
      [[EntRes.many ["not in wiki"], EntRes.many []]],
      [["ORG", "LOC"]],
      [[LabelRes.many ["not in wiki"], LabelRes.many []]]⟩ : CallOut).substrs.getD 0 [] =
        ["париж", "ооо ромашка"].filter (fun x => isDenied x) ++
          ["париж", "ооо ромашка"].filter (fun x => !isDenied x) ∧
    ((⟨[["ооо ромашка", "париж"]],
      [[ConfRes.many [ConfVal.tup (0, 0, 0)], ConfRes.many []]],
      [[(6, 17), (0, 5)]],
      [[EntRes.many ["not in wiki"], EntRes.many []]],
      [["ORG", "LOC"]],
      [[LabelRes.many [
        "not in wiki"], LabelRes.many []]]⟩ : CallOut).substrs.getD 0 []).length =
      (["париж", "ооо ромашка"] : List String).length ∧
    ((⟨[["ооо ромашка", "париж"]],
      [[ConfRes.many [ConfVal.tup (0, 0, 0)], ConfRes.many []]],
      [[(6, 17), (0, 5)]],
      [[EntRes.many ["not in wiki"], EntRes.many []]],
      [["ORG", "LOC"]],
      [[LabelRes.many [
        "not in wiki"], LabelRes.many []]]⟩ : CallOut).ids.getD 0 []).length =
      (["париж", "ооо ромашка"] : List String).length ∧
    ((⟨[["ооо ромашка", "париж"]],
      [[ConfRes.many [ConfVal.tup (0, 0, 0)], ConfRes.many []]],
      [[(6, 17), (0, 5)]],
      [[EntRes.many ["not in wiki"], EntRes.many []]],
      [["ORG", "LOC"]],
      [[LabelRes.many [
        "not in wiki"], LabelRes.many []]]⟩ : CallOut).confs.getD 0 []).length =
      (["париж", "ооо ромашка"] : List String).length :=
  C1_per_mention_results ⟨10, 20, 1, false, 5, false, 512, false, 150, [], [], [], [], []⟩
    id (fun _ _ => [([], [])]) (fun cs _ => cs.map (fun _ => []))
    ["париж", "ооо ромашка"] ["LOC", "ORG"] [(0, 5), (6, 17)] [] [] []
    ["париж столица франции"] [] [(0, 22)] [] rfl rfl (by decide)
    (fun cs es => by rw [List.length_map])
    ⟨[["ооо ромашка", "париж"]],
      [[ConfRes.many [ConfVal.tup (0, 0, 0)], ConfRes.many []]],
      [[(6, 17), (0, 5)]],
      [[EntRes.many ["not in wiki"], EntRes.many []]],
      [["ORG", "LOC"]],
      [[LabelRes.many ["not in wiki"], LabelRes.many []]]⟩ (by rfl)

/-- Witness for C2, part (a), concrete: a batch whose only mention contains
the deny-listed token "ооо", in single-answer mode; the call returns `none`
(the `NameError` of `find_labels`), not a sentinel resolution. -/
theorem C2_denylist_sentinel_witness :
    callSep ⟨10, 20, 1, false, 1, false, 512, false, 150, [], [], [], [], []⟩ id
      (fun _ _ => []) (fun _ _ => []) [["ооо ромашка"]] [[(0, 11)]] [["ORG"]] [] [] =
      none :=
  (C2_denylist_sentinel ⟨10, 20, 1, false, 1, false, 512, false, 150, [], [], [], [], []⟩
    id (fun _ _ => []) (fun _ _ => []) ["ооо ромашка"] ["ORG"] [(0, 11)] [] [] [] [] []
    "ооо ромашка" (List.mem_singleton_self _) (by decide) rfl rfl).1 rfl

end DeepPavlov
